import Mathlib

/-!
# Verification of the contextional fixture-lifecycle engine

A shallow embedding of `contextional/contextional.py`: the `Group` tree,
the flattening of the tree into a queue of test cases with teardown-level
markers (`Group._build_test_cases` / `GroupContextManager.create_tests`),
the common-ancestor computation (`GroupTestCase._find_common_ancestor`),
the unittest-driven lifecycle engine (`GroupTestCase.setUpClass`, `setUp`,
`runTest`, `tearDown`, `tearDownClass`, `_teardown_to_level`), the
pytest-driven path (`Group._setup_group`, `Group._teardown_group`,
`handle_teardowns`), the composition operations (`includes`, `combine`)
over an explicit object store, and parameterized group expansion
(`GroupContextManager.add_group`).

Groups are identified by their path from the root (the list of child
indices), which mirrors Python object identity for the nodes of a tree.
Fixture callables are modelled by their observable behaviour: a one-time
or per-test fixture is a `Bool` (`true` = it raises), a test body is an
`Option Exc` (`none` = it returns normally, `some e` = it raises `e`).
-/

namespace Contextional

/-! ## `GroupTestCase._find_common_ancestor`

`_find_common_ancestor(ancestry_a, ancestry_b)` zips the two lists, scans
for the first index at which the pair disagrees (`branching_point`,
defaulting to the zipped length when every pair agrees), and returns
`ancestry_a[branching_point - 1]`, or `NullGroup` when the branching point
is `0`.  `Option.none` plays the role of `NullGroup`. -/

/-- The `for i, level in enumerate(stack_comp)` scan of
`_find_common_ancestor`: index of the first pair whose components differ,
or the length of the list when all pairs agree. -/
def firstDiffIdx {α : Type} [DecidableEq α] : List (α × α) → Nat
  | [] => 0
  | (x, y) :: rest => if x = y then firstDiffIdx rest + 1 else 0

/-- `branching_point` of `_find_common_ancestor`: the scan applied to
`list(zip(ancestry_a, ancestry_b))`. -/
def branchingPoint {α : Type} [DecidableEq α] (a b : List α) : Nat :=
  firstDiffIdx (a.zip b)

/-- `_find_common_ancestor`: `NullGroup` (here `none`) when the branching
point is `0`, otherwise `ancestry_a[branching_point - 1]`. -/
def findCommonAncestor {α : Type} [DecidableEq α] (a b : List α) : Option α :=
  if branchingPoint a b = 0 then none else a.get? (branchingPoint a b - 1)

/-- Spec-side definition (for the refinement statement of the claim): the
longest common leading run of the two sequences, following the spec's
"longest common prefix" wording. -/
def commonStem {α : Type} [DecidableEq α] : List α → List α → List α
  | x :: xs, y :: ys => if x = y then x :: commonStem xs ys else []
  | _, _ => []

/-! ## The `Group` tree

`Group` objects carry `_cascading_failure` (constructor flag), ordered
fixture lists `_setups`, `_teardowns`, `_test_setups`, `_test_teardowns`,
direct `_cases` and `_children`.  The transient run state
(`_cascading_failure_in_progress`, `_cascading_failure_root`, the helper's
`_level_stack`) lives in `EState` below, keyed by group path, because in
Python it is mutable state on shared objects. -/

/-- Exception classes relevant to the engine.  `CascadingFailureError` is
declared in the source as a subclass of `AssertionError`; `SkipTest` and
generic `Exception` are the other classes unittest's reporting
distinguishes. -/
inductive Exc where
  | cascadingFailure
  | assertionError
  | skipTest
  | otherError
deriving DecidableEq, Repr

/-- unittest reports an exception raised by a test body as a failure
exactly when it is an instance of `failureException = AssertionError`;
`CascadingFailureError(AssertionError)` therefore classifies as a
failure. -/
def Exc.isFailure : Exc → Bool
  | .cascadingFailure => true
  | .assertionError => true
  | _ => false

mutual
/-- A `Group`: cascading flag, one-time setups/teardowns, per-test
setups/teardowns (`true` = the callable raises), direct cases (body
behaviour), child groups. -/
inductive GTree where
  | node (cascading : Bool) (setups : List Bool) (teardowns : List Bool)
      (testSetups : List Bool) (testTeardowns : List Bool)
      (cases : List (Option Exc)) (children : GForest)
  deriving DecidableEq

/-- The ordered list of children of a `Group`. -/
inductive GForest where
  | nil : GForest
  | cons : GTree → GForest → GForest
  deriving DecidableEq
end

def GTree.cascading : GTree → Bool
  | .node c _ _ _ _ _ _ => c

def GTree.setups : GTree → List Bool
  | .node _ s _ _ _ _ _ => s

def GTree.teardowns : GTree → List Bool
  | .node _ _ td _ _ _ _ => td

def GTree.testSetups : GTree → List Bool
  | .node _ _ _ ts _ _ _ => ts

def GTree.testTeardowns : GTree → List Bool
  | .node _ _ _ _ tt _ _ => tt

def GTree.cases : GTree → List (Option Exc)
  | .node _ _ _ _ _ cs _ => cs

def GTree.children : GTree → GForest
  | .node _ _ _ _ _ _ ch => ch

def GForest.get? : GForest → Nat → Option GTree
  | .nil, _ => none
  | .cons g _, 0 => some g
  | .cons _ rest, n + 1 => rest.get? n

/-- A group's identity: its path of child indices from the root group. -/
abbrev Path := List Nat

/-- Look a group up by path. -/
def getNode : GTree → Path → Option GTree
  | g, [] => some g
  | g, i :: p =>
    match g.children.get? i with
    | some c => getNode c p
    | none => none

/-- `list(reversed(group._ancestry))`: the group's ancestors from the root
down to the group itself (`setup_ancestry` in `setUpClass`).  For a path
this is the list of its leading runs, shortest first. -/
def setupAncestry (p : Path) : List Path :=
  (List.range (p.length + 1)).map fun k => p.take k

/-- The `_setups` of the group at `g` (empty for a dangling path). -/
def setupsOf (t : GTree) (g : Path) : List Bool :=
  match getNode t g with
  | some n => n.setups
  | none => []

/-- The `_teardowns` of the group at `g`. -/
def teardownsOf (t : GTree) (g : Path) : List Bool :=
  match getNode t g with
  | some n => n.teardowns
  | none => []

/-- The `_test_setups` of the group at `g`. -/
def testSetupsOf (t : GTree) (g : Path) : List Bool :=
  match getNode t g with
  | some n => n.testSetups
  | none => []

/-- The `_test_teardowns` of the group at `g`. -/
def testTeardownsOf (t : GTree) (g : Path) : List Bool :=
  match getNode t g with
  | some n => n.testTeardowns
  | none => []

/-- The `_cascading_failure` constructor flag of the group at `g`. -/
def cascadingOf (t : GTree) (g : Path) : Bool :=
  match getNode t g with
  | some n => n.cascading
  | none => false

/-- `p` is a leading run of `q` (the tree order's ancestor-or-self
relation on paths). -/
def leadsTo : Path → Path → Bool
  | [], _ => true
  | _, [] => false
  | i :: p, j :: q => i == j && leadsTo p q

/-! ## Flattening: `Group._build_test_cases` and `create_tests`

`_build_test_cases` appends this group's own cases to the helper's global
queue, then visits each child in order; whenever a child's subtree grew
the queue, the teardown level of the queue's last case is set to this
group.  `create_tests` finally sets the teardown level of the very last
case to `NullGroup` when the tree contributed at least one case. -/

/-- A `Case`'s `_teardown_level`: `None`, `NullGroup`, or a `Group`. -/
inductive TdLevel where
  | noneLevel
  | nullLevel
  | atGroup (p : Path)
deriving DecidableEq, Repr

/-- A flattened test case: owning group path, index among the group's
direct cases, body behaviour, and teardown-level marker. -/
structure QCase where
  path : Path
  idx : Nat
  body : Option Exc
  td : TdLevel
deriving DecidableEq, Repr

/-- `Helper._set_teardown_level_for_last_case`: update the `_teardown_level`
of the last case of the queue. -/
def setLastTd : List QCase → TdLevel → List QCase
  | [], _ => []
  | [c], lvl => [{c with td := lvl}]
  | c :: rest, lvl => c :: setLastTd rest lvl

/-- This group's own cases as freshly queued `Case` objects
(`_teardown_level` starts out as `None`). -/
def ownCases (p : Path) (cs : List (Option Exc)) : List QCase :=
  cs.enum.map fun ic => { path := p, idx := ic.1, body := ic.2, td := TdLevel.noneLevel }

mutual
/-- `Group._build_test_cases`, threading the helper's global `_cases`
queue as the accumulator.  The per-child comparison of
`end_test_count > start_test_count` (with `start_test_count` refreshed
after each growth) is equivalent to comparing the queue length before and
after each child's visit. -/
def buildCases : GTree → Path → List QCase → List QCase
  | .node _ _ _ _ _ cs ch, p, acc => buildChildren ch 0 p (acc ++ ownCases p cs)

/-- The `for child in self._children` loop of `_build_test_cases`. -/
def buildChildren : GForest → Nat → Path → List QCase → List QCase
  | .nil, _, _, acc => acc
  | .cons c rest, i, p, acc =>
    let acc' := buildCases c (p ++ [i]) acc
    let acc'' := if acc.length < acc'.length then setLastTd acc' (TdLevel.atGroup p) else acc'
    buildChildren rest (i + 1) p acc''
end

/-- `GroupContextManager.create_tests`: build the queue from the root
group; if it contributed at least one case, the last case's teardown level
becomes `NullGroup`. -/
def createTests (t : GTree) : List QCase :=
  let q := buildCases t [] []
  if q.length > 0 then setLastTd q TdLevel.nullLevel else q

mutual
/-- Accumulator-free form of `buildCases` (equivalence proved below):
the segment of the queue contributed by one subtree. -/
def buildD : GTree → Path → List QCase
  | .node _ _ _ _ _ cs ch, p => ownCases p cs ++ buildChildrenD ch 0 p

/-- Accumulator-free form of `buildChildren`. -/
def buildChildrenD : GForest → Nat → Path → List QCase
  | .nil, _, _ => []
  | .cons c rest, i, p =>
    let d := buildD c (p ++ [i])
    (if 0 < d.length then setLastTd d (TdLevel.atGroup p) else d)
      ++ buildChildrenD rest (i + 1) p
end

/-! ## Run state and the unittest-driven engine

The process-wide mutable state: the helper's `_level_stack` (bottom
first), each group's `_cascading_failure_in_progress` and
`_cascading_failure_root` flags (as the sets of flagged paths), the log of
fixture/test invocations, and the result records handed to the runner. -/

/-- Observable fixture/test invocations, in order. -/
inductive Ev where
  | otSetup (g : Path) (i : Nat)
  | otTeardown (g : Path) (i : Nat)
  | tSetup (g : Path) (i : Nat)
  | tBody (g : Path) (idx : Nat)
  | tTeardown (g : Path) (i : Nat)
deriving DecidableEq, Repr

/-- A per-case outcome as unittest records it. -/
inductive POut where
  | passed
  | failed (e : Exc)
  | errored
  | skipped
deriving DecidableEq, Repr

/-- Result records fed to the runner: `errReplay` is one of the two
`addError` calls `GroupTestCase.setUp` makes when `setUpClass` stored a
swallowed exception; `caseRes` is the ordinary per-case outcome;
`classErr` is an exception escaping `setUpClass`/`tearDownClass` or the
pytest plugin hooks, attributed to a group rather than the case. -/
inductive Rep where
  | errReplay (g : Path) (idx : Nat)
  | caseRes (g : Path) (idx : Nat) (o : POut)
  | classErr (g : Path)
deriving DecidableEq, Repr

/-- unittest's classification of an exception raised by the test body. -/
def classify (e : Exc) : POut :=
  if e.isFailure then .failed e else if e = .skipTest then .skipped else .errored

structure EState where
  stack : List Path
  flags : List Path
  roots : List Path
  evs : List Ev
  reps : List Rep
deriving DecidableEq, Repr

def initState : EState := ⟨[], [], [], [], []⟩

/-- Setting a group's `_cascading_failure_in_progress = True`. -/
def addFlag (flags : List Path) (p : Path) : List Path :=
  if p ∈ flags then flags else flags ++ [p]

/-- `for group in setup_ancestry: if group not in level_stack: append`. -/
def pushMissing (anc : List Path) (stack : List Path) : List Path :=
  anc.foldl (fun st g => if g ∈ st then st else st ++ [g]) stack

/-- The `for group in cls._group._ancestry` loop computing `_auto_fail`:
it assigns each flag in turn and breaks at the first `True`, which equals
`any`. -/
def anyFlagged (flags : List Path) (anc : List Path) : Bool :=
  anc.any fun g => g ∈ flags

/-- Run an ordered fixture list for group `g`: the invocation events of
the fixtures actually called, and whether one of them raised (stopping
the loop). -/
def runFixtures (g : Path) (mk : Path → Nat → Ev) (i : Nat) : List Bool → List Ev × Bool
  | [] => ([], false)
  | raises :: rest =>
    if raises then ([mk g i], true)
    else
      let r := runFixtures g mk (i + 1) rest
      (mk g i :: r.1, r.2)

/-- The stale groups `level_stack[:stop_index:-1]` for a teardown level:
top of stack first; `none` when `list.index` raises (the target level is
not on the stack — the source's `except IndexError` can never fire since
`list.index` raises `ValueError`). -/
def unwindList (stack : List Path) : TdLevel → Option (List Path)
  | .noneLevel => some []
  | .nullLevel => some stack.reverse
  | .atGroup p =>
    match stack.findIdx? (fun q => q = p) with
    | none => none
    | some k => some ((stack.drop (k + 1)).reverse)

/-- The teardown loop of `GroupTestCase._teardown_to_level`: run each
stale group's one-time teardowns, then `remove` it from the stack.  A
raising teardown propagates immediately — before the `remove` — so the
raising group and every group below it stay on the stack. -/
def tdSeq (t : GTree) : List Path → EState → EState × Option Exc
  | [], st => (st, none)
  | g :: rest, st =>
    let r := runFixtures g Ev.otTeardown 0 (teardownsOf t g)
    let st' := { st with evs := st.evs ++ r.1 }
    if r.2 then (st', some Exc.otherError)
    else tdSeq t rest { st' with stack := st'.stack.erase g }

/-- `GroupTestCase._teardown_to_level`. -/
def teardownToLevel (t : GTree) (lvl : TdLevel) (st : EState) : EState × Option Exc :=
  match lvl with
  | .noneLevel => (st, none)
  | _ =>
    match unwindList st.stack lvl with
    | none => (st, some Exc.otherError)
    | some gs => tdSeq t gs st

/-- What `setUpClass` leaves on the test class: `_auto_fail` and the
swallowed exception `_err`. -/
structure ClassCtx where
  autoFail : Bool
  err : Option Exc
deriving DecidableEq, Repr

/-- The setup loop of `setUpClass`: for each group of `setup_ancestry` not
yet on the stack, run its one-time setups, then append it to the stack.  A
raising setup jumps to the handler before the append. -/
def setupLoop (t : GTree) : List Path → EState → EState × Option Exc
  | [], st => (st, none)
  | g :: rest, st =>
    if g ∈ st.stack then setupLoop t rest st
    else
      let r := runFixtures g Ev.otSetup 0 (setupsOf t g)
      let st' := { st with evs := st.evs ++ r.1 }
      if r.2 then (st', some Exc.otherError)
      else setupLoop t rest { st' with stack := st'.stack ++ [g] }

/-- The `except Exception` handler at the end of `setUpClass`: store the
exception in `_err`; if the *case's* group has `_cascading_failure`, set
`_auto_fail`, mark the case's group `_cascading_failure_in_progress`, and
push the whole ancestry onto the stack.  The final `raise` is commented
out in the source, so the exception never escapes. -/
def exceptBranch (t : GTree) (cpath : Path) (anc : List Path) (st : EState) (e : Exc) :
    EState × ClassCtx :=
  if cascadingOf t cpath then
    ({ st with flags := addFlag st.flags cpath, stack := pushMissing anc st.stack },
      ⟨true, some e⟩)
  else (st, ⟨false, some e⟩)

/-- `GroupTestCase.setUpClass` for the case owned by group `cpath`
(dequeuing and description bookkeeping omitted): compute `_auto_fail` from
the ancestry's `_cascading_failure_in_progress` flags; in the auto-fail
branch just push the missing ancestry groups; otherwise tear down to the
common ancestor of the stack and the ancestry, then run the setup loop,
with both feeding the `except` handler. -/
def setUpClassStep (t : GTree) (cpath : Path) (st : EState) : EState × ClassCtx :=
  let anc := setupAncestry cpath
  if anyFlagged st.flags anc.reverse then
    ({ st with stack := pushMissing anc st.stack }, ⟨true, none⟩)
  else
    let r1 := teardownToLevel t
      (match findCommonAncestor st.stack anc with
        | none => TdLevel.nullLevel
        | some g => TdLevel.atGroup g) st
    match r1.2 with
    | some e => exceptBranch t cpath anc r1.1 e
    | none =>
      let r2 := setupLoop t anc r1.1
      match r2.2 with
      | some e => exceptBranch t cpath anc r2.1 e
      | none => (r2.1, ⟨false, none⟩)

/-- The per-test phase driven by unittest: `GroupTestCase.setUp` (replay
of a stored `_err` as two `addError` calls plus auto-fail, then either the
cascading early return or the per-test setups), `runTest` (raise
`CascadingFailureError` under auto-fail, else the body), and `tearDown`
(early return under auto-fail, else the per-test teardowns).  unittest
runs the body and `tearDown` only when `setUp` returned normally, runs
`tearDown` even when the body raised, and records one outcome per raising
phase (an `AssertionError` from the body is a failure, `SkipTest` a skip,
anything else an error; `setUp`/`tearDown` exceptions are errors).
Returns the updated state and the class's final `_auto_fail`. -/
def perTestStep (t : GTree) (c : QCase) (ctx : ClassCtx) (st0 : EState) : EState × Bool :=
  let casc := cascadingOf t c.path
  let tsu := testSetupsOf t c.path
  let ttd := testTeardownsOf t c.path
  let st1 := match ctx.err with
    | some _ => { st0 with
        reps := st0.reps ++ [Rep.errReplay c.path c.idx, Rep.errReplay c.path c.idx],
        flags := addFlag st0.flags c.path }
    | none => st0
  let af1 := match ctx.err with
    | some _ => true
    | none => ctx.autoFail
  if af1 then
    ({ st1 with
        reps := st1.reps ++ [Rep.caseRes c.path c.idx (classify Exc.cascadingFailure)] },
      true)
  else
    let rs := runFixtures c.path Ev.tSetup 0 tsu
    let st2 := { st1 with evs := st1.evs ++ rs.1 }
    if rs.2 then
      let st3 := if casc then { st2 with flags := addFlag st2.flags c.path } else st2
      ({ st3 with reps := st3.reps ++ [Rep.caseRes c.path c.idx POut.errored] },
        if casc then true else af1)
    else
      let st3 := { st2 with evs := st2.evs ++ [Ev.tBody c.path c.idx] }
      let st4 := match c.body with
        | some e => { st3 with reps := st3.reps ++ [Rep.caseRes c.path c.idx (classify e)] }
        | none => st3
      let rt := runFixtures c.path Ev.tTeardown 0 ttd
      let st5 := { st4 with evs := st4.evs ++ rt.1 }
      if rt.2 then
        let st6 := if casc then { st5 with flags := addFlag st5.flags c.path } else st5
        ({ st6 with reps := st6.reps ++ [Rep.caseRes c.path c.idx POut.errored] },
          if casc then true else af1)
      else
        match c.body with
        | none => ({ st5 with reps := st5.reps ++ [Rep.caseRes c.path c.idx POut.passed] }, af1)
        | some _ => (st5, af1)

/-- `GroupTestCase.tearDownClass`: nothing for a `None` teardown level;
under `_auto_fail` with a non-cascading case group, pop the stale groups
without running their teardowns (`list.index` raising `ValueError` when
the level is absent escapes as a class-level error); otherwise
`_teardown_to_level`, whose exceptions also escape as class-level
errors. -/
def tearDownClassStep (t : GTree) (c : QCase) (autoFail : Bool) (st : EState) : EState :=
  match c.td with
  | TdLevel.noneLevel => st
  | lvl =>
    if autoFail && !(cascadingOf t c.path) then
      match unwindList st.stack lvl with
      | none => { st with reps := st.reps ++ [Rep.classErr c.path] }
      | some gs => { st with stack := gs.foldl (fun s g => s.erase g) st.stack }
    else
      let r := teardownToLevel t lvl st
      match r.2 with
      | none => r.1
      | some _ => { r.1 with reps := r.1.reps ++ [Rep.classErr c.path] }

/-- One queued case, driven through
`setUpClass` / `setUp` / `runTest` / `tearDown` / `tearDownClass`. -/
def processCase (t : GTree) (c : QCase) (st : EState) : EState :=
  let r1 := setUpClassStep t c.path st
  let r2 := perTestStep t c r1.2 r1.1
  tearDownClassStep t c r2.2 r2.1

/-- The full unittest-driven run over a case queue. -/
def runEngine (t : GTree) (q : List QCase) (st : EState) : EState :=
  q.foldl (fun s c => processCase t c s) st

/-! ## The pytest-driven path: `Group._setup_group`,
`Group._teardown_group`, `handle_teardowns` -/

/-- `Group._setup_group`: return early when the group is already on the
stack; otherwise push it first, recompute its
`_cascading_failure_in_progress` as `any` over its ancestry, skip the
setups when it is set, else run the setups — a raising setup marks the
group flagged and as the cascading root (when `_cascading_failure`) and
re-raises (reported by the plugin, which then continues). -/
def setupGroupStep (t : GTree) (g : Path) (st : EState) : EState × Option Exc :=
  if g ∈ st.stack then (st, none)
  else
    let st1 := { st with stack := st.stack ++ [g] }
    if anyFlagged st1.flags (setupAncestry g).reverse then
      ({ st1 with flags := addFlag st1.flags g }, none)
    else
      let r := runFixtures g Ev.otSetup 0 (setupsOf t g)
      let st2 := { st1 with evs := st1.evs ++ r.1 }
      if r.2 then
        let casc := match getNode t g with
          | some n => n.cascading
          | none => false
        if casc then
          ({ st2 with flags := addFlag st2.flags g, roots := addFlag st2.roots g },
            some Exc.otherError)
        else (st2, some Exc.otherError)
      else (st2, none)

/-- `Group._teardown_group`: return early when the group is not on the
stack; run its one-time teardowns; the group is removed from the stack
whether or not a teardown raised (the `except` clause removes it before
re-raising). -/
def teardownGroupStep (t : GTree) (g : Path) (st : EState) : EState × Option Exc :=
  if g ∈ st.stack then
    let r := runFixtures g Ev.otTeardown 0 (teardownsOf t g)
    let st1 := { st with evs := st.evs ++ r.1, stack := st.stack.erase g }
    (st1, if r.2 then some Exc.otherError else none)
  else (st, none)

/-- The cascading-failure filter of `handle_teardowns`: walk the stale
groups top-down, silently dropping (from the teardown list and the stack)
every group up to the first cascading root.  Returns the groups kept for
teardown and the groups dropped. -/
def ignoreLoop (roots : List Path) : List Path → List Path × List Path
  | [] => ([], [])
  | g :: rest =>
    if g ∈ roots then (g :: rest, [])
    else
      let r := ignoreLoop roots rest
      (r.1, g :: r.2)

/-- The teardown loop of `handle_teardowns`: each stale group still on the
stack is torn down via `Group._teardown_group`; an exception is caught,
reported against that group, and the loop continues with the next stale
group. -/
def tdLoopPy (t : GTree) : List Path → EState → EState
  | [], st => st
  | g :: rest, st =>
    if g ∈ st.stack then
      let r := teardownGroupStep t g st
      let st2 := match r.2 with
        | some _ => { r.1 with reps := r.1.reps ++ [Rep.classErr g] }
        | none => r.1
      tdLoopPy t rest st2
    else tdLoopPy t rest st

/-- `handle_teardowns` of the pytest plugin (for a case with a teardown
level): compute the stale groups, drop the cascading-suppressed ones when
the case's group has a cascading failure in progress, then run the
teardown loop. -/
def handleTeardowns (t : GTree) (c : QCase) (st : EState) : EState :=
  match c.td with
  | TdLevel.noneLevel => st
  | lvl =>
    match unwindList st.stack lvl with
    | none => { st with reps := st.reps ++ [Rep.classErr c.path] }
    | some gs =>
      if c.path ∈ st.flags then
        let r := ignoreLoop st.roots gs
        tdLoopPy t r.1 { st with stack := r.2.foldl (fun s g => s.erase g) st.stack }
      else tdLoopPy t gs st

/-! ## Predicates used by the statements about the flattening and the
cascading-failure suppression -/

/-- `true` on the per-test phase events (per-test setups, the body,
per-test teardowns). -/
def Ev.isPerTest : Ev → Bool
  | .tSetup _ _ => true
  | .tBody _ _ => true
  | .tTeardown _ _ => true
  | _ => false

/-- `true` on class-level error records (failures attributed to a group,
not to the case). -/
def Rep.isClassErr : Rep → Bool
  | .classErr _ => true
  | _ => false

/-- Unwinding to this teardown level pops the group at `q` off the
fixture stack: tearing down to level `p` pops every stack entry strictly
above `p`, and `q` sits strictly above each of its proper leading runs
whenever a case of `q`'s subtree runs; the null marker unwinds
everything. -/
def unwindsLvl : TdLevel → Path → Bool
  | .nullLevel, _ => true
  | .noneLevel, _ => false
  | .atGroup p, q => leadsTo p q && !(p == q)

/-- Processing case `c`'s end-of-case teardown unwinds the group at path
`q`. -/
def unwindsB (c : QCase) (q : Path) : Bool :=
  unwindsLvl c.td q

/-- The cases of the queue lying in the subtree of the group at `q`. -/
def subQ (l : List QCase) (q : Path) : List QCase :=
  l.filter fun c => leadsTo q c.path

/-- The group at `q` has a well-defined teardown owner in the queue
segment `l`: whenever `q`'s subtree contributed a case, the *last* case
of `q`'s subtree in `l` carries a teardown level that unwinds `q` (a
strict leading run of `q`, or the null marker), and no other case of
`q`'s subtree does.  (A case is identified by its group path and its
index among that group's direct cases.) -/
def ownerProp (l : List QCase) (q : Path) : Prop :=
  subQ l q ≠ [] →
    ∃ cstar, (subQ l q).getLast? = some cstar
      ∧ unwindsB cstar q = true
      ∧ ∀ x ∈ subQ l q, unwindsB x q = true → x.path = cstar.path ∧ x.idx = cstar.idx

/-! ## Parameterized group expansion (`GroupContextManager.add_group`)

On leaving an `add_group` context the manager makes, for each parameter
set, a deep copy of the fully declared child, sets the copy's `_args`,
appends a suffix to the copy's description (`" {}".format(params[gid])`
for a plain sequence of sets, `" {}".format(gid)` — the key — for a
mapping), appends the copy to the parent's children, and finally removes
the original child (by object identity) from the parent's children. -/

/-- One set of parameters (the values are opaque to the claims). -/
abbrev ArgSet := List Int

/-- The rendering of one parameter set used as a description suffix. -/
def reprArgSet (a : ArgSet) : String :=
  toString a

/-- The `params` argument of `add_group`: absent, a plain sequence of
sets, or a mapping whose `pairs` are listed in the order `params.keys()`
iterates them — which in the source's Python 2 is the hash-table order of
the `dict`, not its insertion order (the `add_group` docstring's own
example output lists `set #2` before `set #1`). -/
inductive Params where
  | noParams
  | seq (sets : List ArgSet)
  | mapping (pairs : List (String × ArgSet))
deriving DecidableEq, Repr

/-- The fully declared child group at context exit: its description, its
`_args`, and everything else the deep copy replicates (fixtures, cases,
descendants), modelled as its subtree. -/
structure ChildGroup where
  desc : String
  args : ArgSet
  body : GTree
deriving DecidableEq

/-- The copies the `for gid in group_identifiers` loop appends: one deep
copy of the child per identifier, with `_args` set from `params[gid]` and
the description suffixed. -/
def paramCopies (child : ChildGroup) : Params → List ChildGroup
  | .noParams => [{ child with args := [] }]
  | .seq sets =>
    (List.range sets.length).map fun gid =>
      { child with
        args := sets.getD gid [],
        desc := child.desc ++ " " ++ reprArgSet (sets.getD gid []) }
  | .mapping pairs =>
    pairs.map fun kv =>
      { child with
        args := (pairs.lookup kv.1).getD [],
        desc := child.desc ++ " " ++ kv.1 }

/-- The parent's children list after the `add_group` context exits, given
the children `prior` that preceded the declared child: the copies are
appended and the original child removed.  (`list.remove` removes by
equality, which for `Group` objects is identity; `List.erase` matches it
whenever the original is the first occurrence, hence the `child ∉ prior`
hypotheses in the theorems below.) -/
def addGroupExit (prior : List ChildGroup) (child : ChildGroup) (ps : Params) :
    List ChildGroup :=
  ((prior ++ [child]) ++ paramCopies child ps).erase child

/-! ## Composition over an explicit object store (`includes`, `combine`)

Python `Group` objects live on a heap and `deepcopy` allocates fresh
objects for the whole subtree.  The store is a list of group objects
addressed by index; allocation appends. -/

/-- A stored group object: its description and the ids of its children.
(The remaining fields — fixtures, cases — behave identically under
copying and are omitted; `desc` doubles as the mutable field, since the
mutation the claim cites is the description update of parameterized
expansion.) -/
structure GObj where
  desc : String
  children : List Nat
deriving DecidableEq, Repr

abbrev Store := List GObj

mutual
/-- A group subtree read out of the store (the value `deepcopy`
replicates). -/
inductive PTree where
  | node (desc : String) (kids : PForest)
  deriving DecidableEq

/-- A list of subtrees. -/
inductive PForest where
  | nil : PForest
  | cons : PTree → PForest → PForest
  deriving DecidableEq
end

def PForest.toList : PForest → List PTree
  | .nil => []
  | .cons t f => t :: f.toList

/-- Read a list of subtrees, given a reader for a single subtree. -/
def readKidsWith (f : Nat → Option PTree) : List Nat → Option PForest
  | [] => some PForest.nil
  | i :: rest =>
    match f i with
    | none => none
    | some t =>
      match readKidsWith f rest with
      | none => none
      | some fo => some (PForest.cons t fo)

/-- Read the subtree rooted at id `i` out of the store; `fuel` bounds the
depth (`deepcopy` on a cyclic structure is out of scope — the tree
invariant of §3 rules cycles out). -/
def readTree (s : Store) : Nat → Nat → Option PTree
  | 0, _ => none
  | fuel + 1, i =>
    match s.get? i with
    | none => none
    | some o =>
      match readKidsWith (readTree s fuel) o.children with
      | none => none
      | some ks => some (PTree.node o.desc ks)

mutual
/-- Allocate a fresh copy of a subtree in the store (`deepcopy`): every
node of the copy gets a fresh id at the end of the store.  Returns the
extended store and the copy's root id. -/
def writeTree (s : Store) : PTree → Store × Nat
  | .node d ks =>
    let r := writeKids s ks
    (r.1 ++ [⟨d, r.2⟩], r.1.length)

/-- Allocate fresh copies of a list of subtrees. -/
def writeKids (s : Store) : PForest → Store × List Nat
  | .nil => (s, [])
  | .cons t f =>
    let r1 := writeTree s t
    let r2 := writeKids r1.1 f
    (r2.1, r1.2 :: r2.2)
end

/-- A later mutation of a stored group (e.g. the description suffix a
parameterized expansion appends). -/
def setDesc (s : Store) (i : Nat) (d : String) : Store :=
  match s.get? i with
  | none => s
  | some o => s.set i { o with desc := d }

/-- `GroupContextManager.includes` for one source: deep-copy the source's
root group and append the copy to the target group's children. -/
def includesOp (s : Store) (target srcRoot fuel : Nat) : Option Store :=
  match readTree s fuel srcRoot with
  | none => none
  | some pt =>
    match (writeTree s pt).1.get? target with
    | none => none
    | some o =>
      some ((writeTree s pt).1.set target
        { o with children := o.children ++ [(writeTree s pt).2] })

/-- `GroupContextManager.combine` for one source: deep-copy the source's
root group and splice the copy's children into the target's children (the
copy's fixtures and cases are spliced likewise; they are not modelled
separately). -/
def combineOp (s : Store) (target srcRoot fuel : Nat) : Option Store :=
  match readTree s fuel srcRoot with
  | none => none
  | some pt =>
    match (writeTree s pt).1.get? (writeTree s pt).2, (writeTree s pt).1.get? target with
    | some copy, some o =>
      some ((writeTree s pt).1.set target
        { o with children := o.children ++ copy.children })
    | _, _ => none

/-! ## The type check of `includes` / `combine`

Both loop over their arguments and raise
`TypeError("method only accepts GroupContextManager objects")` at the
first argument that is not a `GroupContextManager`, leaving the additions
made for earlier (valid) arguments in place. -/

/-- An argument of `includes`/`combine`: a `GroupContextManager` handle
(carrying its root group) or any other value. -/
inductive CtxArg where
  | gcm (root : PTree)
  | notGcm (tag : Nat)

def CtxArg.isGcm : CtxArg → Bool
  | .gcm _ => true
  | .notGcm _ => false

/-- The outcome of the loop: normal return or a `TypeError`, either way
with the target's resulting children. -/
inductive CompRes where
  | ok (children : List PTree)
  | typeError (children : List PTree)

/-- The `for context in contexts` loop of `includes` (over pure subtree
values: the store-level copy is `includesOp`). -/
def includesRun (cs : List PTree) : List CtxArg → CompRes
  | [] => .ok cs
  | .gcm g :: rest => includesRun (cs ++ [g]) rest
  | .notGcm _ :: _ => .typeError cs

/-- The `for context in contexts` loop of `combine`: each valid source's
children are spliced in. -/
def combineRun (cs : List PTree) : List CtxArg → CompRes
  | [] => .ok cs
  | .gcm g :: rest =>
    match g with
    | .node _ ks => combineRun (cs ++ ks.toList) rest
  | .notGcm _ :: _ => .typeError cs

/-- The children contributed by the longest valid leading run of the
argument list, for `includes`. -/
def validAdds (args : List CtxArg) : List PTree :=
  (args.takeWhile CtxArg.isGcm).filterMap fun a =>
    match a with
    | .gcm g => some g
    | .notGcm _ => none

/-- The children contributed by the longest valid leading run of the
argument list, for `combine`. -/
def validKidAdds (args : List CtxArg) : List PTree :=
  (args.takeWhile CtxArg.isGcm).flatMap fun a =>
    match a with
    | .gcm (.node _ ks) => ks.toList
    | .notGcm _ => []

/-! ## Concrete instances used by the counterexamples and the code-bug
run -/

/-- The tree exhibiting the double setup invocation: a root group, one
child `A` (path `[0]`) whose single one-time setup raises, and two
grandchild groups `G1 = [0, 0]` (declared with `cascading_failure=False`)
and `G2 = [0, 1]`, each with one passing case. -/
def failTree : GTree :=
  .node true [] [] [] [] []
    (.cons (.node true [true] [] [] [] []
      (.cons (.node false [] [] [] [] [none] .nil)
        (.cons (.node true [] [] [] [] [none] .nil) .nil))) .nil)

/-- Root → `A = [0]` → `B = [0, 0]`; `A` and `B` have one one-time
teardown each, and `B`'s raises. -/
def tdTree : GTree :=
  .node true [] [false] [] [] []
    (.cons (.node true [] [false] [] [] []
      (.cons (.node true [] [true] [] [] [none] .nil) .nil)) .nil)

/-- A fixture stack holding the root, `A`, and `B` of `tdTree`. -/
def tdState : EState := ⟨[[], [0], [0, 0]], [], [], [], []⟩

/-- Root with one child group `[0]` that has a one-time setup and one
case. -/
def c4Tree : GTree :=
  .node true [] [] [] [] []
    (.cons (.node true [false] [] [] [] [none] .nil) .nil)

/-- The root group is on the stack and has a cascading failure in
progress. -/
def c4State : EState := ⟨[[]], [[]], [], [], []⟩

/-! # Theorems -/

/-! ## The common-ancestor computation (C6, C10) -/

theorem commonStem_nil_right {α : Type} [DecidableEq α] (a : List α) :
    commonStem a [] = [] := by
  cases a <;> rfl

theorem commonStem_comm {α : Type} [DecidableEq α] (a b : List α) :
    commonStem a b = commonStem b a := by
  induction a generalizing b with
  | nil => cases b <;> rfl
  | cons x xs ih =>
    cases b with
    | nil => rfl
    | cons y ys =>
      simp only [commonStem]
      by_cases h : x = y
      · subst h
        simp [ih]
      · simp [h, Ne.symm h]

theorem commonStem_isPre {α : Type} [DecidableEq α] (a b : List α) :
    commonStem a b <+: a := by
  induction a generalizing b with
  | nil => cases b <;> simp [commonStem]
  | cons x xs ih =>
    cases b with
    | nil => simp [commonStem]
    | cons y ys =>
      simp only [commonStem]
      by_cases h : x = y
      · obtain ⟨t, ht⟩ := ih ys
        exact ⟨t, by simp [h, ht]⟩
      · simp [h]

theorem branchingPoint_eq_stem_length {α : Type} [DecidableEq α] (a b : List α) :
    branchingPoint a b = (commonStem a b).length := by
  induction a generalizing b with
  | nil => cases b <;> rfl
  | cons x xs ih =>
    cases b with
    | nil => rfl
    | cons y ys =>
      simp only [branchingPoint, List.zip_cons_cons, firstDiffIdx, commonStem]
      by_cases h : x = y
      · simpa [h] using ih ys
      · simp [h]

theorem get?_of_stem_last {α : Type} [DecidableEq α] (a b : List α)
    (h : commonStem a b ≠ []) :
    a.get? ((commonStem a b).length - 1) = (commonStem a b).getLast? := by
  induction a generalizing b with
  | nil => cases b <;> simp_all [commonStem]
  | cons x xs ih =>
    cases b with
    | nil => simp_all [commonStem]
    | cons y ys =>
      by_cases hxy : x = y
      · subst hxy
        simp only [commonStem, if_pos rfl] at h ⊢
        rcases hs : commonStem xs ys with _ | ⟨z, zs⟩
        · simp
        · have h' : commonStem xs ys ≠ [] := by simp [hs]
          have := ih ys h'
          rw [hs] at this
          simpa [List.getLast?_cons_cons, Nat.succ_sub_one] using this
      · simp [commonStem, hxy] at h

theorem findCommonAncestor_eq_stem {α : Type} [DecidableEq α] (a b : List α) :
    findCommonAncestor a b = (commonStem a b).getLast? := by
  unfold findCommonAncestor
  rw [branchingPoint_eq_stem_length]
  by_cases h : (commonStem a b).length = 0
  · rw [if_pos h]
    rw [List.length_eq_zero] at h
    simp [h]
  · rw [if_neg h]
    have hne : commonStem a b ≠ [] := by
      intro hc
      exact h (by simp [hc])
    exact get?_of_stem_last a b hne

theorem stem_get?_past_end {α : Type} [DecidableEq α] (a b : List α) :
    a.get? (commonStem a b).length ≠ b.get? (commonStem a b).length
    ∨ a.get? (commonStem a b).length = none := by
  induction a generalizing b with
  | nil => right; rfl
  | cons x xs ih =>
    cases b with
    | nil =>
      left
      simp [commonStem_nil_right]
    | cons y ys =>
      by_cases h : x = y
      · subst h
        simpa [commonStem] using ih ys
      · left
        simp [commonStem, h]

/-- **C6.** `_find_common_ancestor` computes the branching point as the
first index at which the two ancestry sequences differ (the shorter
length when one is a leading run of the other): the branching point
equals the length of their longest common leading run `commonStem a b`,
which is a leading run of both sequences and cannot be extended (at index
`branchingPoint a b` the sequences differ or have ended); the resulting
common ancestor is the last element of that longest common leading run,
and it is the null marker (`none`, standing for `NullGroup`) exactly when
the branching point is `0`. -/
theorem C6_findCommonAncestor_correct {α : Type} [DecidableEq α] (a b : List α) :
    branchingPoint a b = (commonStem a b).length
    ∧ commonStem a b <+: a
    ∧ commonStem a b <+: b
    ∧ (a.get? (branchingPoint a b) ≠ b.get? (branchingPoint a b)
        ∨ a.get? (branchingPoint a b) = none)
    ∧ findCommonAncestor a b = (commonStem a b).getLast?
    ∧ (findCommonAncestor a b = none ↔ branchingPoint a b = 0) := by
  refine ⟨branchingPoint_eq_stem_length a b, commonStem_isPre a b, ?_, ?_, ?_, ?_⟩
  · rw [commonStem_comm]
    exact commonStem_isPre b a
  · rw [branchingPoint_eq_stem_length]
    exact stem_get?_past_end a b
  · exact findCommonAncestor_eq_stem a b
  · rw [findCommonAncestor_eq_stem, branchingPoint_eq_stem_length]
    constructor
    · intro h
      rcases hs : commonStem a b with _ | ⟨z, zs⟩
      · rfl
      · rw [hs] at h
        simp [List.getLast?_eq_getLast] at h
    · intro h
      rw [List.length_eq_zero] at h
      simp [h]

/-- **C10.** The common-ancestor computation is commutative: even though
the implementation indexes only its first argument,
`_find_common_ancestor(a, b)` and `_find_common_ancestor(b, a)` return
the same result (including the `NullGroup` case). -/
theorem C10_findCommonAncestor_comm {α : Type} [DecidableEq α] (a b : List α) :
    findCommonAncestor a b = findCommonAncestor b a := by
  rw [findCommonAncestor_eq_stem, findCommonAncestor_eq_stem, commonStem_comm]

/-! ## The double setup invocation (C1) -/

/-- **C1.** The claim "each Group's one-time setups are invoked at most
once" fails on the code: running the full engine over the flattened queue
of `failTree`, group `A = [0]`'s one-time setup `#0` is invoked twice.
What happens: the first case (under `G1 = [0, 0]`, declared with
`cascading_failure=False`) runs `A`'s setups, which raise; because the
*case's* group `G1` has `cascading_failure` false, the `except` handler
of `setUpClass` neither pushes `A` onto the fixture stack nor flags
anything, and the exception is swallowed (the `raise` is commented out).
`setUp` then flags only `G1`.  The second case (under `G2 = [0, 1]`) sees
no flag in its own ancestry, finds `A` missing from the stack, and runs
`A`'s setups again — contradicting `add_setup`'s documented "this setup
will only be run once". -/
theorem C1_setup_invoked_twice :
    ((runEngine failTree (createTests failTree) initState).evs.count
      (Ev.otSetup [0] 0)) = 2 := by
  decide

/-! ## Teardown failures during unwinding (C2) -/

/-- **C2 counterexample.** With the fixture stack `[root, A, B]` and the
engine unwinding to the root (teardown level `atGroup []`, `_auto_fail`
false), `B = [0, 0]`'s one-time teardown raises.  Contrary to the claim,
`B` is *not* popped off the fixture stack (the stack is unchanged), and
the remaining stale group `A = [0]`'s teardown never attempts to run: the
only teardown event is `B`'s, and the exception escapes `tearDownClass`
as a class-level error. -/
theorem C2_counterexample :
    (tearDownClassStep tdTree ⟨[0, 0], 0, none, TdLevel.atGroup []⟩ false tdState).stack
        = [[], [0], [0, 0]]
    ∧ [0, 0] ∈ (tearDownClassStep tdTree ⟨[0, 0], 0, none, TdLevel.atGroup []⟩ false
        tdState).stack
    ∧ (tearDownClassStep tdTree ⟨[0, 0], 0, none, TdLevel.atGroup []⟩ false tdState).evs
        = [Ev.otTeardown [0, 0] 0]
    ∧ (tearDownClassStep tdTree ⟨[0, 0], 0, none, TdLevel.atGroup []⟩ false tdState).reps
        = [Rep.classErr [0, 0]] := by
  decide

/-! ## Cascading-failure marking during the setup phase (C4) -/

/-- **C4 counterexample.** The root group `[]` has
`cascading_failure_in_progress` set and is on the fixture stack; the
engine processes a case of the child group `[0]`.  As the claim states,
`[0]`'s one-time setups are skipped (no events) and `[0]` is pushed onto
the fixture stack — but contrary to the claim, `[0]`'s own
`cascading_failure_in_progress` flag is *not* marked: the auto-fail
branch of `setUpClass` only appends the missing ancestry groups to
`_level_stack` and touches no flags. -/
theorem C4_counterexample :
    (setUpClassStep c4Tree [0] c4State).1.stack = [[], [0]]
    ∧ (setUpClassStep c4Tree [0] c4State).1.evs = []
    ∧ (setUpClassStep c4Tree [0] c4State).1.flags = [[]]
    ∧ [0] ∉ (setUpClassStep c4Tree [0] c4State).1.flags := by
  decide

/-! ## Engine helper lemmas -/

theorem runFixtures_mem {g : Path} {mk : Path → Nat → Ev} :
    ∀ {l : List Bool} {i : Nat} {e : Ev}, e ∈ (runFixtures g mk i l).1 → ∃ j, e = mk g j := by
  intro l
  induction l with
  | nil => intro i e h; simp [runFixtures] at h
  | cons b rest ih =>
    intro i e h
    by_cases hb : b = true
    · simp [runFixtures, hb] at h
      exact ⟨i, h⟩
    · simp only [runFixtures, Bool.not_eq_true] at hb
      simp [runFixtures, hb] at h
      rcases h with h | h
      · exact ⟨i, h⟩
      · exact ih h

theorem runFixtures_head {g : Path} {mk : Path → Nat → Ev} {l : List Bool} {i : Nat}
    (h : 0 < l.length) : mk g i ∈ (runFixtures g mk i l).1 := by
  cases l with
  | nil => simp at h
  | cons b rest =>
    by_cases hb : b = true
    · simp [runFixtures, hb]
    · simp only [Bool.not_eq_true] at hb
      simp [runFixtures, hb]

theorem addFlag_self (flags : List Path) (p : Path) : p ∈ addFlag flags p := by
  unfold addFlag
  by_cases h : p ∈ flags
  · simp [h]
  · simp [h]

theorem pushMissing_mem_of_mem (anc : List Path) :
    ∀ (stack : List Path) (x : Path), x ∈ stack → x ∈ pushMissing anc stack := by
  induction anc with
  | nil => intro stack x h; simpa [pushMissing] using h
  | cons a rest ih =>
    intro stack x h
    show x ∈ pushMissing rest (if a ∈ stack then stack else stack ++ [a])
    by_cases ha : a ∈ stack
    · simpa [ha] using ih stack x h
    · simp only [ha, if_false]
      exact ih (stack ++ [a]) x (by simp [h])

theorem pushMissing_mem (anc : List Path) :
    ∀ (stack : List Path) (x : Path), x ∈ anc → x ∈ pushMissing anc stack := by
  induction anc with
  | nil => intro stack x h; simp at h
  | cons a rest ih =>
    intro stack x h
    show x ∈ pushMissing rest (if a ∈ stack then stack else stack ++ [a])
    rcases List.mem_cons.mp h with rfl | hx
    · by_cases ha : x ∈ stack
      · simpa [ha] using pushMissing_mem_of_mem rest stack x ha
      · simp only [ha, if_false]
        exact pushMissing_mem_of_mem rest (stack ++ [x]) x (by simp)
    · by_cases ha : a ∈ stack
      · simpa [ha] using ih stack x hx
      · simp only [ha, if_false]
        exact ih (stack ++ [a]) x hx

/-- In the auto-fail branch of `setUpClass` (a cascading failure in
progress somewhere in the case's ancestry) the only effect is pushing the
missing ancestry groups onto the stack. -/
theorem setUpClassStep_flagged (t : GTree) (cpath : Path) (st : EState)
    (h : anyFlagged st.flags (setupAncestry cpath).reverse = true) :
    setUpClassStep t cpath st
      = ({ st with stack := pushMissing (setupAncestry cpath) st.stack }, ⟨true, none⟩) := by
  simp [setUpClassStep, h]

/-- Under `_auto_fail` with no stored exception, the per-test phase runs
nothing and records the `CascadingFailureError` outcome, which classifies
as a failure. -/
theorem perTestStep_autoFail (t : GTree) (c : QCase) (st : EState) :
    perTestStep t c ⟨true, none⟩ st
      = ({ st with
          reps := st.reps ++ [Rep.caseRes c.path c.idx (POut.failed Exc.cascadingFailure)] },
        true) := by
  simp [perTestStep, classify, Exc.isFailure]

theorem tdSeq_shape (t : GTree) :
    ∀ (gs : List Path) (st : EState),
      ∃ stack' evs2,
        (tdSeq t gs st).1 = { st with stack := stack', evs := st.evs ++ evs2 }
        ∧ ∀ e ∈ evs2, ∃ g i, e = Ev.otTeardown g i := by
  intro gs
  induction gs with
  | nil =>
    intro st
    exact ⟨st.stack, [], by simp [tdSeq], by simp⟩
  | cons g rest ih =>
    intro st
    simp only [tdSeq]
    by_cases hr : (runFixtures g Ev.otTeardown 0 (teardownsOf t g)).2 = true
    · refine ⟨st.stack, (runFixtures g Ev.otTeardown 0 (teardownsOf t g)).1, by simp [hr], ?_⟩
      intro e he
      rcases runFixtures_mem he with ⟨j, rfl⟩
      exact ⟨g, j, rfl⟩
    · simp only [Bool.not_eq_true] at hr
      simp only [hr, if_false]
      obtain ⟨stack', evs2, heq, hall⟩ :=
        ih { st with
          stack := (st.stack).erase g,
          evs := st.evs ++ (runFixtures g Ev.otTeardown 0 (teardownsOf t g)).1 }
      refine ⟨stack', (runFixtures g Ev.otTeardown 0 (teardownsOf t g)).1 ++ evs2, ?_, ?_⟩
      · simpa using heq
      · intro e he
        rcases List.mem_append.mp he with he | he
        · rcases runFixtures_mem he with ⟨j, rfl⟩
          exact ⟨g, j, rfl⟩
        · exact hall e he

theorem teardownToLevel_shape (t : GTree) (lvl : TdLevel) (st : EState) :
    ∃ stack' evs2,
      (teardownToLevel t lvl st).1 = { st with stack := stack', evs := st.evs ++ evs2 }
      ∧ ∀ e ∈ evs2, ∃ g i, e = Ev.otTeardown g i := by
  match lvl with
  | TdLevel.noneLevel => exact ⟨st.stack, [], by simp [teardownToLevel], by simp⟩
  | TdLevel.nullLevel =>
    simp only [teardownToLevel]
    match unwindList st.stack TdLevel.nullLevel with
    | none => exact ⟨st.stack, [], by simp, by simp⟩
    | some gs => exact tdSeq_shape t gs st
  | TdLevel.atGroup p =>
    simp only [teardownToLevel]
    match unwindList st.stack (TdLevel.atGroup p) with
    | none => exact ⟨st.stack, [], by simp, by simp⟩
    | some gs => exact tdSeq_shape t gs st

theorem tearDownClassStep_shape (t : GTree) (c : QCase) (autoFail : Bool) (st : EState) :
    ∃ stack' evs2 extra,
      tearDownClassStep t c autoFail st
        = { st with stack := stack', evs := st.evs ++ evs2, reps := st.reps ++ extra }
      ∧ (∀ e ∈ evs2, ∃ g i, e = Ev.otTeardown g i)
      ∧ extra.all Rep.isClassErr = true := by
  match hc : c.td with
  | TdLevel.noneLevel =>
    refine ⟨st.stack, [], [], ?_, by simp, by simp⟩
    simp [tearDownClassStep, hc]
  | TdLevel.nullLevel =>
    simp only [tearDownClassStep, hc]
    by_cases haf : (autoFail && !(cascadingOf t c.path)) = true
    · simp only [haf, if_true]
      match unwindList st.stack TdLevel.nullLevel with
      | none => exact ⟨st.stack, [], [Rep.classErr c.path], by simp, by simp, by simp [Rep.isClassErr]⟩
      | some gs =>
        exact ⟨gs.foldl (fun s g => s.erase g) st.stack, [], [], by simp, by simp, by simp⟩
    · simp only [Bool.not_eq_true] at haf
      simp only [haf, if_false]
      obtain ⟨stack', evs2, heq, hall⟩ := teardownToLevel_shape t TdLevel.nullLevel st
      match hr : (teardownToLevel t TdLevel.nullLevel st).2 with
      | none => exact ⟨stack', evs2, [], by simpa using heq, hall, by simp⟩
      | some e =>
        refine ⟨stack', evs2, [Rep.classErr c.path], ?_, hall, by simp [Rep.isClassErr]⟩
        simp [heq]
  | TdLevel.atGroup p =>
    simp only [tearDownClassStep, hc]
    by_cases haf : (autoFail && !(cascadingOf t c.path)) = true
    · simp only [haf, if_true]
      match unwindList st.stack (TdLevel.atGroup p) with
      | none => exact ⟨st.stack, [], [Rep.classErr c.path], by simp, by simp, by simp [Rep.isClassErr]⟩
      | some gs =>
        exact ⟨gs.foldl (fun s g => s.erase g) st.stack, [], [], by simp, by simp, by simp⟩
    · simp only [Bool.not_eq_true] at haf
      simp only [haf, if_false]
      obtain ⟨stack', evs2, heq, hall⟩ := teardownToLevel_shape t (TdLevel.atGroup p) st
      match hr : (teardownToLevel t (TdLevel.atGroup p) st).2 with
      | none => exact ⟨stack', evs2, [], by simpa using heq, hall, by simp⟩
      | some e =>
        refine ⟨stack', evs2, [Rep.classErr c.path], ?_, hall, by simp [Rep.isClassErr]⟩
        simp [heq]

/-! ## Cascading-failure suppression of a case (C3) -/

/-- **C3.** If, when a case is processed, some group of its ancestry
chain (itself included) has a cascading failure in progress, then none of
the case's per-test setups, its body, or its per-test teardowns run (the
events added to the log during the whole processing are one-time
teardowns only, never per-test events), and the single outcome recorded
for the case is `failed CascadingFailureError` — a failure (the
distinguished signal is an `AssertionError` subclass), never an error or
a skip.  Any further records are class-level errors attributed to groups,
not to the case. -/
theorem C3_cascading_suppression (t : GTree) (c : QCase) (st : EState)
    (h : anyFlagged st.flags (setupAncestry c.path).reverse = true) :
    ∃ stack' evs2 extra,
      processCase t c st
        = { st with
            stack := stack',
            evs := st.evs ++ evs2,
            reps := st.reps
              ++ [Rep.caseRes c.path c.idx (POut.failed Exc.cascadingFailure)] ++ extra }
      ∧ (∀ e ∈ evs2, e.isPerTest = false)
      ∧ extra.all Rep.isClassErr = true := by
  unfold processCase
  rw [setUpClassStep_flagged t c.path st h]
  simp only
  rw [perTestStep_autoFail]
  simp only
  obtain ⟨stack', evs2, extra, heq, hall, hextra⟩ :=
    tearDownClassStep_shape t c true
      { st with
        stack := pushMissing (setupAncestry c.path) st.stack,
        reps := st.reps ++ [Rep.caseRes c.path c.idx (POut.failed Exc.cascadingFailure)] }
  refine ⟨stack', evs2, extra, ?_, ?_, hextra⟩
  · simpa using heq
  · intro e he
    rcases hall e he with ⟨g, i, rfl⟩
    rfl

/-- **C3 witness.** -/
theorem C3_witness :
    ∃ stack' evs2 extra,
      processCase c4Tree ⟨[0], 0, none, TdLevel.noneLevel⟩ c4State
        = { c4State with
            stack := stack',
            evs := c4State.evs ++ evs2,
            reps := c4State.reps
              ++ [Rep.caseRes [0] 0 (POut.failed Exc.cascadingFailure)] ++ extra }
      ∧ (∀ e ∈ evs2, e.isPerTest = false)
      ∧ extra.all Rep.isClassErr = true :=
  C3_cascading_suppression c4Tree ⟨[0], 0, none, TdLevel.noneLevel⟩ c4State (by decide)

/-! ## The pytest teardown loop (for the amended C2) -/

theorem tdLoopPy_stack_subset (t : GTree) :
    ∀ (gs : List Path) (st : EState) (x : Path),
      x ∈ (tdLoopPy t gs st).stack → x ∈ st.stack := by
  intro gs
  induction gs with
  | nil => intro st x h; simpa [tdLoopPy] using h
  | cons g rest ih =>
    intro st x h
    simp only [tdLoopPy] at h
    by_cases hg : g ∈ st.stack
    · simp only [hg, if_true, teardownGroupStep, if_pos hg] at h
      by_cases hr : (runFixtures g Ev.otTeardown 0 (teardownsOf t g)).2 = true
      · simp only [hr] at h
        have := ih _ x h
        simp only at this
        exact List.mem_of_mem_erase this
      · simp only [Bool.not_eq_true] at hr
        simp only [hr] at h
        have := ih _ x h
        simp only at this
        exact List.mem_of_mem_erase this
    · simp only [hg, if_false] at h
      exact ih st x h

theorem tdLoopPy_evs_mono (t : GTree) :
    ∀ (gs : List Path) (st : EState) (e : Ev),
      e ∈ st.evs → e ∈ (tdLoopPy t gs st).evs := by
  intro gs
  induction gs with
  | nil => intro st e h; simpa [tdLoopPy] using h
  | cons g rest ih =>
    intro st e h
    simp only [tdLoopPy]
    by_cases hg : g ∈ st.stack
    · simp only [hg, if_true, teardownGroupStep, if_pos hg]
      by_cases hr : (runFixtures g Ev.otTeardown 0 (teardownsOf t g)).2 = true
      · simp only [hr]
        exact ih _ e (by simp [h])
      · simp only [Bool.not_eq_true] at hr
        simp only [hr]
        exact ih _ e (by simp [h])
    · simp only [hg, if_false]
      exact ih st e h

theorem tdLoopPy_removes (t : GTree) :
    ∀ (gs : List Path) (st : EState), st.stack.Nodup →
      ∀ g ∈ gs, g ∉ (tdLoopPy t gs st).stack := by
  intro gs
  induction gs with
  | nil => intro st _ g h; simp at h
  | cons g0 rest ih =>
    intro st hnd g hmem
    simp only [tdLoopPy]
    by_cases hg : g0 ∈ st.stack
    · simp only [hg, if_true, teardownGroupStep, if_pos hg]
      have hkey : ∀ e2 : Option Exc,
          g ∉ (tdLoopPy t rest
            (match e2 with
              | some _ => { st with
                  evs := st.evs ++ (runFixtures g0 Ev.otTeardown 0 (teardownsOf t g0)).1,
                  stack := st.stack.erase g0,
                  reps := ({ st with
                    evs := st.evs ++ (runFixtures g0 Ev.otTeardown 0 (teardownsOf t g0)).1,
                    stack := st.stack.erase g0 } : EState).reps ++ [Rep.classErr g0] }
              | none => { st with
                  evs := st.evs ++ (runFixtures g0 Ev.otTeardown 0 (teardownsOf t g0)).1,
                  stack := st.stack.erase g0 })).stack := by
        intro e2
        rcases List.mem_cons.mp hmem with rfl | htail
        · intro hcontra
          have hh : g ∈ st.stack.erase g :=
            match e2 with
            | some _ => tdLoopPy_stack_subset t rest _ g hcontra
            | none => tdLoopPy_stack_subset t rest _ g hcontra
          exact (List.Nodup.not_mem_erase hnd) hh
        · match e2 with
          | some _ => exact ih _ (by simpa using hnd.erase g0) g htail
          | none => exact ih _ (by simpa using hnd.erase g0) g htail
      by_cases hr : (runFixtures g0 Ev.otTeardown 0 (teardownsOf t g0)).2 = true
      · simpa [hr] using hkey (some Exc.otherError)
      · simp only [Bool.not_eq_true] at hr
        simpa [hr] using hkey none
    · simp only [hg, if_false]
      rcases List.mem_cons.mp hmem with rfl | htail
      · intro hcontra
        exact hg (tdLoopPy_stack_subset t rest st g hcontra)
      · exact ih st hnd g htail

theorem tdLoopPy_attempts (t : GTree) :
    ∀ (gs : List Path) (st : EState),
      ∀ g ∈ gs, g ∈ st.stack → 0 < (teardownsOf t g).length →
        Ev.otTeardown g 0 ∈ (tdLoopPy t gs st).evs := by
  intro gs
  induction gs with
  | nil => intro st g h; simp at h
  | cons g0 rest ih =>
    intro st g hmem hstack htds
    simp only [tdLoopPy]
    by_cases hg : g0 ∈ st.stack
    · simp only [hg, if_true, teardownGroupStep, if_pos hg]
      by_cases hgg : g = g0
      · subst hgg
        have hev : Ev.otTeardown g 0
            ∈ st.evs ++ (runFixtures g Ev.otTeardown 0 (teardownsOf t g)).1 := by
          simp [runFixtures_head htds]
        by_cases hr : (runFixtures g Ev.otTeardown 0 (teardownsOf t g)).2 = true
        · simp only [hr]
          exact tdLoopPy_evs_mono t rest _ _ (by simpa using hev)
        · simp only [Bool.not_eq_true] at hr
          simp only [hr]
          exact tdLoopPy_evs_mono t rest _ _ (by simpa using hev)
      · have htail : g ∈ rest := by
          rcases List.mem_cons.mp hmem with rfl | htail
          · exact absurd rfl hgg
          · exact htail
        have hstack' : g ∈ st.stack.erase g0 := List.mem_erase_of_ne hgg |>.mpr hstack
        by_cases hr : (runFixtures g0 Ev.otTeardown 0 (teardownsOf t g0)).2 = true
        · simp only [hr]
          exact ih _ g htail (by simpa using hstack') htds
        · simp only [Bool.not_eq_true] at hr
          simp only [hr]
          exact ih _ g htail (by simpa using hstack') htds
    · simp only [hg, if_false]
      rcases List.mem_cons.mp hmem with rfl | htail
      · exact absurd hstack hg
      · exact ih st g htail hstack htds

/-- **C2 amended.** A one-time teardown failure behaves differently on
the two engine paths.  Unittest path (`_teardown_to_level`): when the
teardowns of the topmost stale group `g` raise, the exception propagates
*before* the `remove`, so the whole stack is left unchanged — `g` is not
popped and the remaining stale groups' teardowns never attempt to run in
that phase.  Pytest path (`handle_teardowns` + `Group._teardown_group`):
every stale group is popped even when its teardown raises (the `except`
clause removes it before re-raising), the exception is reported against
that group, and the loop continues, so the remaining stale groups'
teardowns still attempt to run. -/
theorem C2_amended (t : GTree) (g : Path) (rest : List Path) (st : EState)
    (hr : (runFixtures g Ev.otTeardown 0 (teardownsOf t g)).2 = true)
    (t2 : GTree) (gs : List Path) (st2 : EState) (hnd : st2.stack.Nodup) :
    (tdSeq t (g :: rest) st
      = ({ st with evs := st.evs ++ (runFixtures g Ev.otTeardown 0 (teardownsOf t g)).1 },
        some Exc.otherError))
    ∧ (∀ g' ∈ gs, g' ∉ (tdLoopPy t2 gs st2).stack)
    ∧ (∀ g' ∈ gs, g' ∈ st2.stack → 0 < (teardownsOf t2 g').length →
        Ev.otTeardown g' 0 ∈ (tdLoopPy t2 gs st2).evs) := by
  refine ⟨?_, ?_, ?_⟩
  · simp [tdSeq, hr]
  · exact tdLoopPy_removes t2 gs st2 hnd
  · exact tdLoopPy_attempts t2 gs st2

/-- **C2 amended witness.** -/
theorem C2_amended_witness :
    (tdSeq tdTree ([0, 0] :: [[0], []]) tdState
      = ({ tdState with
          evs := tdState.evs
            ++ (runFixtures [0, 0] Ev.otTeardown 0 (teardownsOf tdTree [0, 0])).1 },
        some Exc.otherError))
    ∧ (∀ g' ∈ [([0, 0] : Path), [0], []], g' ∉ (tdLoopPy tdTree [[0, 0], [0], []] tdState).stack)
    ∧ (∀ g' ∈ [([0, 0] : Path), [0], []], g' ∈ tdState.stack →
        0 < (teardownsOf tdTree g').length →
        Ev.otTeardown g' 0 ∈ (tdLoopPy tdTree [[0, 0], [0], []] tdState).evs) :=
  C2_amended tdTree [0, 0] [[0], []] tdState (by decide)
    tdTree [[0, 0], [0], []] tdState (by decide)

/-- **C4 amended.** For a new group with a cascading failure in progress
somewhere in its ancestry (itself included), the setup phase skips all of
its one-time setups and still pushes it onto the fixture stack on both
engine paths, but only the pytest path (`Group._setup_group`) marks the
group's own `cascading_failure_in_progress` flag; the unittest path
(`setUpClass`'s auto-fail branch) pushes the missing ancestry groups and
leaves every flag unchanged. -/
theorem C4_amended (t : GTree) (cpath : Path) (st : EState)
    (h1 : anyFlagged st.flags (setupAncestry cpath).reverse = true)
    (t2 : GTree) (g2 : Path) (st2 : EState)
    (h2 : g2 ∉ st2.stack)
    (h3 : anyFlagged st2.flags (setupAncestry g2).reverse = true) :
    (setUpClassStep t cpath st
      = ({ st with stack := pushMissing (setupAncestry cpath) st.stack }, ⟨true, none⟩))
    ∧ (∀ g ∈ setupAncestry cpath, g ∈ (setUpClassStep t cpath st).1.stack)
    ∧ (setupGroupStep t2 g2 st2
      = ({ st2 with stack := st2.stack ++ [g2], flags := addFlag st2.flags g2 }, none))
    ∧ g2 ∈ (setupGroupStep t2 g2 st2).1.flags := by
  have hA := setUpClassStep_flagged t cpath st h1
  have hB : setupGroupStep t2 g2 st2
      = ({ st2 with stack := st2.stack ++ [g2], flags := addFlag st2.flags g2 }, none) := by
    simp [setupGroupStep, h2, h3]
  refine ⟨hA, ?_, hB, ?_⟩
  · intro g hg
    rw [hA]
    exact pushMissing_mem (setupAncestry cpath) st.stack g hg
  · rw [hB]
    exact addFlag_self st2.flags g2

/-- **C4 amended witness.** -/
theorem C4_amended_witness :
    (setUpClassStep c4Tree [0] c4State
      = ({ c4State with stack := pushMissing (setupAncestry [0]) c4State.stack },
        ⟨true, none⟩))
    ∧ (∀ g ∈ setupAncestry [0], g ∈ (setUpClassStep c4Tree [0] c4State).1.stack)
    ∧ (setupGroupStep c4Tree [0] c4State
      = ({ c4State with
          stack := c4State.stack ++ [[0]]
          flags := addFlag c4State.flags [0] }, none))
    ∧ [0] ∈ (setupGroupStep c4Tree [0] c4State).1.flags :=
  C4_amended c4Tree [0] c4State (by decide) c4Tree [0] c4State (by decide) (by decide)

/-! ## Type check of the composition operations (C9) -/

/-- **C9.** When any argument of `includes` or `combine` is not a
`GroupContextManager` handle, the call raises the `TypeError` at
declaration time — the loop returns the `typeError` outcome rather than
a normal one — and no copy of that argument is added: the target only
gains the contributions of the valid arguments preceding the first
invalid one. -/
theorem C9_composition_type_check (cs cs2 : List PTree) (args : List CtxArg)
    (h : ∃ a ∈ args, a.isGcm = false) :
    includesRun cs args = CompRes.typeError (cs ++ validAdds args)
    ∧ combineRun cs2 args = CompRes.typeError (cs2 ++ validKidAdds args) := by
  induction args generalizing cs cs2 with
  | nil => simp at h
  | cons a rest ih =>
    match a with
    | CtxArg.notGcm tag =>
      refine ⟨?_, ?_⟩
      · simp [includesRun, validAdds, List.takeWhile, CtxArg.isGcm]
      · simp [combineRun, validKidAdds, List.takeWhile, CtxArg.isGcm]
    | CtxArg.gcm g =>
      have h' : ∃ a ∈ rest, a.isGcm = false := by
        rcases h with ⟨a, hmem, hbad⟩
        rcases List.mem_cons.mp hmem with rfl | htail
        · simp [CtxArg.isGcm] at hbad
        · exact ⟨a, htail, hbad⟩
      match g with
      | PTree.node d ks =>
        obtain ⟨ih1, ih2⟩ := ih (cs ++ [PTree.node d ks]) (cs2 ++ ks.toList) h'
        refine ⟨?_, ?_⟩
        · rw [show includesRun cs (CtxArg.gcm (PTree.node d ks) :: rest)
              = includesRun (cs ++ [PTree.node d ks]) rest from rfl, ih1]
          simp [validAdds, List.takeWhile, CtxArg.isGcm]
        · rw [show combineRun cs2 (CtxArg.gcm (PTree.node d ks) :: rest)
              = combineRun (cs2 ++ ks.toList) rest from rfl, ih2]
          simp [validKidAdds, List.takeWhile, CtxArg.isGcm]

/-- **C9 witness.** -/
theorem C9_witness :
    includesRun [] [CtxArg.gcm (PTree.node "PG" PForest.nil), CtxArg.notGcm 7]
      = CompRes.typeError
        ([] ++ validAdds [CtxArg.gcm (PTree.node "PG" PForest.nil), CtxArg.notGcm 7])
    ∧ combineRun [] [CtxArg.gcm (PTree.node "PG" PForest.nil), CtxArg.notGcm 7]
      = CompRes.typeError
        ([] ++ validKidAdds [CtxArg.gcm (PTree.node "PG" PForest.nil), CtxArg.notGcm 7]) :=
  C9_composition_type_check [] [] [CtxArg.gcm (PTree.node "PG" PForest.nil), CtxArg.notGcm 7]
    ⟨CtxArg.notGcm 7, by simp, rfl⟩

/-! ## Deep-copy independence of `includes` / `combine` (C8) -/

mutual
theorem writeTree_extends : ∀ (s : Store) (pt : PTree), ∃ d, (writeTree s pt).1 = s ++ d
  | s, .node dsc ks => by
    obtain ⟨d, hd⟩ := writeKids_extends s ks
    exact ⟨d ++ [⟨dsc, (writeKids s ks).2⟩], by simp [writeTree, hd]⟩

theorem writeKids_extends : ∀ (s : Store) (f : PForest), ∃ d, (writeKids s f).1 = s ++ d
  | _, .nil => ⟨[], by simp [writeKids]⟩
  | s, .cons t f => by
    obtain ⟨d1, h1⟩ := writeTree_extends s t
    obtain ⟨d2, h2⟩ := writeKids_extends (writeTree s t).1 f
    refine ⟨d1 ++ d2, ?_⟩
    simp only [writeKids]
    rw [h2, h1, List.append_assoc]
end

theorem writeTree_grows (s : Store) (pt : PTree) : s.length < (writeTree s pt).1.length := by
  match pt with
  | .node dsc ks =>
    obtain ⟨d, hd⟩ := writeKids_extends s ks
    simp [writeTree, hd]

theorem get?_set_of_ne {α : Type} (l : List α) (m n : Nat) (a : α) (h : m ≠ n) :
    (l.set m a).get? n = l.get? n := by
  rw [List.get?_eq_getElem?, List.get?_eq_getElem?, List.getElem?_set_ne h]

theorem get?_append_of_lt {α : Type} (l₁ l₂ : List α) (n : Nat) (h : n < l₁.length) :
    (l₁ ++ l₂).get? n = l₁.get? n := by
  rw [List.get?_eq_getElem?, List.get?_eq_getElem?, List.getElem?_append_left h]

theorem setDesc_get?_ne (s : Store) (j : Nat) (d : String) (i : Nat) (h : i ≠ j) :
    (setDesc s j d).get? i = s.get? i := by
  unfold setDesc
  match hs : s.get? j with
  | none => rfl
  | some o => exact get?_set_of_ne s j i _ (Ne.symm h)

/-- The store after `includes`/`combine`: the original entries, the fresh
copy, and the updated target. -/
theorem compOp_shape (s : Store) (tg r fuel : Nat) (s₁ : Store)
    (h : includesOp s tg r fuel = some s₁ ∨ combineOp s tg r fuel = some s₁) :
    s.length < s₁.length ∧ ∀ i, i < s.length → i ≠ tg → s₁.get? i = s.get? i := by
  rcases h with h | h
  · unfold includesOp at h
    split at h
    · exact absurd h (by simp)
    · rename_i pt hpt
      split at h
      · exact absurd h (by simp)
      · rename_i o ho
        obtain ⟨d, hd⟩ := writeTree_extends s pt
        have hgrow := writeTree_grows s pt
        injection h with h
        subst h
        constructor
        · simpa using hgrow
        · intro i hi hne
          rw [get?_set_of_ne _ _ _ _ (Ne.symm hne), hd, get?_append_of_lt _ _ _ hi]
  · unfold combineOp at h
    split at h
    · exact absurd h (by simp)
    · rename_i pt hpt
      split at h
      · rename_i copy o hcopy hto
        obtain ⟨d, hd⟩ := writeTree_extends s pt
        have hgrow := writeTree_grows s pt
        injection h with h
        subst h
        constructor
        · simpa using hgrow
        · intro i hi hne
          rw [get?_set_of_ne _ _ _ _ (Ne.symm hne), hd, get?_append_of_lt _ _ _ hi]
      · exact absurd h (by simp)

/-- **C8.** `includes` (graft) and `combine` (merge) add a deep copy, not
an alias: the copy's objects are all freshly allocated (the store grows),
the composition leaves every pre-existing group object other than the
target untouched, later mutations of any freshly allocated object (any id
at or beyond the original store's length — in particular every node of
the copy, from this or any other composition of the same source) do not
change any pre-existing object of the source tree, and mutations of any
pre-existing object do not change the freshly allocated copies. -/
theorem C8_deepcopy_independence
    (s : Store) (tg r fuel : Nat) (s₁ : Store) (h1 : includesOp s tg r fuel = some s₁)
    (s2 : Store) (tg2 r2 fuel2 : Nat) (s₂ : Store)
    (h2 : combineOp s2 tg2 r2 fuel2 = some s₂) :
    (s.length < s₁.length
      ∧ (∀ i, i < s.length → i ≠ tg → s₁.get? i = s.get? i)
      ∧ (∀ j d, s.length ≤ j → ∀ i, i < s.length → (setDesc s₁ j d).get? i = s₁.get? i)
      ∧ (∀ i d, i < s.length → ∀ j, s.length ≤ j → (setDesc s₁ i d).get? j = s₁.get? j))
    ∧ (s2.length < s₂.length
      ∧ (∀ i, i < s2.length → i ≠ tg2 → s₂.get? i = s2.get? i)
      ∧ (∀ j d, s2.length ≤ j → ∀ i, i < s2.length → (setDesc s₂ j d).get? i = s₂.get? i)
      ∧ (∀ i d, i < s2.length → ∀ j, s2.length ≤ j → (setDesc s₂ i d).get? j = s₂.get? j)) := by
  obtain ⟨hg1, hf1⟩ := compOp_shape s tg r fuel s₁ (Or.inl h1)
  obtain ⟨hg2, hf2⟩ := compOp_shape s2 tg2 r2 fuel2 s₂ (Or.inr h2)
  refine ⟨⟨hg1, hf1, ?_, ?_⟩, ⟨hg2, hf2, ?_, ?_⟩⟩
  · intro j d hj i hi
    exact setDesc_get?_ne s₁ j d i (by omega)
  · intro i d hi j hj
    exact setDesc_get?_ne s₁ i d j (by omega)
  · intro j d hj i hi
    exact setDesc_get?_ne s₂ j d i (by omega)
  · intro i d hi j hj
    exact setDesc_get?_ne s₂ i d j (by omega)

/-- **C8 witness.** -/
theorem C8_witness :
    ∃ s₁ s₂,
      includesOp [⟨"tgt", []⟩, ⟨"src", []⟩] 0 1 1 = some s₁
      ∧ combineOp [⟨"tgt", []⟩, ⟨"src", []⟩] 0 1 1 = some s₂
      ∧ ([⟨"tgt", []⟩, ⟨"src", []⟩] : Store).length < s₁.length
      ∧ (∀ i, i < ([⟨"tgt", []⟩, ⟨"src", []⟩] : Store).length → i ≠ 0 →
          s₁.get? i = ([⟨"tgt", []⟩, ⟨"src", []⟩] : Store).get? i) := by
  refine ⟨[⟨"tgt", [2]⟩, ⟨"src", []⟩, ⟨"src", []⟩], [⟨"tgt", []⟩, ⟨"src", []⟩, ⟨"src", []⟩],
    by rfl, by rfl, ?_, ?_⟩
  · have := (C8_deepcopy_independence [⟨"tgt", []⟩, ⟨"src", []⟩] 0 1 1
      [⟨"tgt", [2]⟩, ⟨"src", []⟩, ⟨"src", []⟩] (by rfl)
      [⟨"tgt", []⟩, ⟨"src", []⟩] 0 1 1
      [⟨"tgt", []⟩, ⟨"src", []⟩, ⟨"src", []⟩] (by rfl)).1.1
    exact this
  · have := (C8_deepcopy_independence [⟨"tgt", []⟩, ⟨"src", []⟩] 0 1 1
      [⟨"tgt", [2]⟩, ⟨"src", []⟩, ⟨"src", []⟩] (by rfl)
      [⟨"tgt", []⟩, ⟨"src", []⟩] 0 1 1
      [⟨"tgt", []⟩, ⟨"src", []⟩, ⟨"src", []⟩] (by rfl)).1.2.1
    simpa using this

/-! ## Parameterized group expansion (C7) -/

/-- **C7 counterexample.** The claim requires the `N` copies to appear
"in the same relative order as the parameter sets were declared".  The
loop iterates `params.keys()`, and for a Python 2 `dict` that is
hash-table order, not declaration order: the `add_group` docstring's own
example declares the mapping with `"set #1"` before `"set #2"` yet shows
the groups created with `set #2` first.  With that iteration order (keys
listed as `set #2`, `set #1` for a mapping declared `set #1`, `set #2`),
the copies come out suffixed `set #2` then `set #1` — not the declared
order. -/
theorem C7_counterexample :
    ((addGroupExit [] ⟨"CG", [], GTree.node true [] [] [] [] [] GForest.nil⟩
        (Params.mapping [("set #2", [3, 2, 1]), ("set #1", [1, 2, 3])])).map ChildGroup.desc
      = ["CG set #2", "CG set #1"])
    ∧ ((addGroupExit [] ⟨"CG", [], GTree.node true [] [] [] [] [] GForest.nil⟩
        (Params.mapping [("set #2", [3, 2, 1]), ("set #1", [1, 2, 3])])).map ChildGroup.args
      = [[3, 2, 1], [1, 2, 3]])
    ∧ (["CG set #2", "CG set #1"] ≠ ["CG set #1", "CG set #2"]) := by
  decide

theorem range_map_getD {α β : Type} (d : α) (f : α → β) :
    ∀ l : List α, (List.range l.length).map (fun i => f (l.getD i d)) = l.map f := by
  intro l
  induction l with
  | nil => rfl
  | cons x xs ih =>
    rw [List.length_cons, List.range_succ_eq_map, List.map_cons, List.map_map, List.map_cons]
    have h1 : ((fun i => f ((x :: xs).getD i d)) ∘ Nat.succ) = fun i => f (xs.getD i d) := by
      funext i
      rfl
    rw [h1, ih]
    rfl

theorem lookup_self {β : Type} :
    ∀ pairs : List (String × β), (pairs.map Prod.fst).Nodup →
      ∀ kv ∈ pairs, pairs.lookup kv.1 = some kv.2 := by
  intro pairs
  induction pairs with
  | nil => intro _ kv h; simp at h
  | cons p rest ih =>
    intro hnd kv hmem
    rw [List.map_cons, List.nodup_cons] at hnd
    rcases List.mem_cons.mp hmem with rfl | htail
    · simp [List.lookup]
    · have hne : (kv.1 == p.1) = false := by
        rw [beq_eq_false_iff_ne]
        intro he
        refine hnd.1 ?_
        rw [← he]
        exact List.mem_map_of_mem Prod.fst htail
      have hstep : List.lookup kv.1 (p :: rest) = List.lookup kv.1 rest := by
        cases p with
        | mk k b => simp only [List.lookup, hne]
      rw [hstep]
      exact ih hnd.2 kv htail

theorem erase_mid (prior l : List ChildGroup) (child : ChildGroup) (hnp : child ∉ prior) :
    ((prior ++ [child]) ++ l).erase child = prior ++ l := by
  rw [List.append_assoc, List.erase_append_right _ hnp]
  simp

/-- **C7 amended.** On exiting an `add_group` context with `N` parameter
sets, the single declared child is replaced by `N` copies of it — each
keeping the child's declared subtree, receiving the corresponding
parameter set as its `_args`, and having a suffix appended to its
description (the rendered parameter set for a plain sequence of sets, the
set's key for a mapping).  For a plain sequence the copies appear in the
declared order of the sets; for a mapping they appear in the mapping's
key-iteration order, which need not be the declaration order.  Without
parameters the child is replaced by one unsuffixed copy with empty
`_args`. -/
theorem C7_amended (prior : List ChildGroup) (child : ChildGroup) (sets : List ArgSet)
    (pairs : List (String × ArgSet)) (hnp : child ∉ prior)
    (hnd : (pairs.map Prod.fst).Nodup) :
    addGroupExit prior child (Params.seq sets)
      = prior ++ sets.map (fun a =>
          { child with args := a, desc := child.desc ++ " " ++ reprArgSet a })
    ∧ addGroupExit prior child (Params.mapping pairs)
      = prior ++ pairs.map (fun kv =>
          { child with args := kv.2, desc := child.desc ++ " " ++ kv.1 })
    ∧ addGroupExit prior child Params.noParams = prior ++ [{ child with args := [] }] := by
  refine ⟨?_, ?_, ?_⟩
  · unfold addGroupExit paramCopies
    rw [erase_mid _ _ _ hnp]
    congr 1
    exact range_map_getD []
      (fun a => { child with args := a, desc := child.desc ++ " " ++ reprArgSet a }) sets
  · unfold addGroupExit paramCopies
    rw [erase_mid _ _ _ hnp]
    congr 1
    apply List.map_congr_left
    intro kv hkv
    rw [lookup_self pairs hnd kv hkv]
    rfl
  · unfold addGroupExit paramCopies
    rw [erase_mid _ _ _ hnp]

/-- **C7 amended witness.** -/
theorem C7_amended_witness :
    addGroupExit [] ⟨"CG", [], GTree.node true [] [] [] [] [] GForest.nil⟩
        (Params.seq [[1], [2]])
      = [] ++ [[1], [2]].map (fun a =>
          { (⟨"CG", [], GTree.node true [] [] [] [] [] GForest.nil⟩ : ChildGroup) with
            args := a, desc := "CG" ++ " " ++ reprArgSet a }) :=
  (C7_amended [] ⟨"CG", [], GTree.node true [] [] [] [] [] GForest.nil⟩ [[1], [2]]
    [("k", [1])] (by simp) (by simp)).1

/-! ## Path-order lemmas (for C5) -/

theorem leadsTo_nil (q : Path) : leadsTo [] q = true := by
  cases q <;> rfl

theorem leadsTo_refl (p : Path) : leadsTo p p = true := by
  induction p with
  | nil => rfl
  | cons i rest ih => simp [leadsTo, ih]

theorem leadsTo_append (p s : Path) : leadsTo p (p ++ s) = true := by
  induction p with
  | nil => exact leadsTo_nil s
  | cons i rest ih => simp [leadsTo, ih]

theorem leadsTo_trans : ∀ {a b c : Path},
    leadsTo a b = true → leadsTo b c = true → leadsTo a c = true := by
  intro a
  induction a with
  | nil => intro b c _ _; exact leadsTo_nil c
  | cons i resta ih =>
    intro b c hab hbc
    cases b with
    | nil => simp [leadsTo] at hab
    | cons j restb =>
      cases c with
      | nil => simp [leadsTo] at hbc
      | cons k restc =>
        simp only [leadsTo, Bool.and_eq_true, beq_iff_eq] at hab hbc ⊢
        exact ⟨hab.1.trans hbc.1, ih hab.2 hbc.2⟩

theorem leadsTo_length : ∀ {a b : Path}, leadsTo a b = true → a.length ≤ b.length := by
  intro a
  induction a with
  | nil => intro b _; simp
  | cons i resta ih =>
    intro b h
    cases b with
    | nil => simp [leadsTo] at h
    | cons j restb =>
      simp only [leadsTo, Bool.and_eq_true] at h
      simpa using ih h.2

theorem leadsTo_eq_of_length_ge : ∀ {a b : Path},
    leadsTo a b = true → b.length ≤ a.length → a = b := by
  intro a
  induction a with
  | nil =>
    intro b _ hlen
    cases b with
    | nil => rfl
    | cons j restb => simp at hlen
  | cons i resta ih =>
    intro b h hlen
    cases b with
    | nil => simp [leadsTo] at h
    | cons j restb =>
      simp only [leadsTo, Bool.and_eq_true, beq_iff_eq] at h
      simp only [List.length_cons, Nat.succ_le_succ_iff] at hlen
      rw [h.1, ih h.2 hlen]

theorem leadsTo_length_lt {a b : Path} (h : leadsTo a b = true) (hne : a ≠ b) :
    a.length < b.length := by
  rcases Nat.lt_or_ge a.length b.length with hlt | hge
  · exact hlt
  · exact absurd (leadsTo_eq_of_length_ge h hge) hne

theorem leadsTo_index : ∀ {p : Path} {i j : Nat} {x : Path},
    leadsTo (p ++ [i]) x = true → leadsTo (p ++ [j]) x = true → i = j := by
  intro p
  induction p with
  | nil =>
    intro i j x hi hj
    cases x with
    | nil => simp [leadsTo] at hi
    | cons k restx =>
      simp only [List.nil_append, leadsTo, Bool.and_eq_true, beq_iff_eq] at hi hj
      rw [hi.1, hj.1]
  | cons a resta ih =>
    intro i j x hi hj
    cases x with
    | nil => simp [leadsTo] at hi
    | cons k restx =>
      simp only [List.cons_append, leadsTo, Bool.and_eq_true, beq_iff_eq] at hi hj
      exact ih hi.2 hj.2

theorem leadsTo_decomp : ∀ {p q : Path}, leadsTo p q = true → q ≠ p →
    ∃ j q', q = p ++ j :: q' := by
  intro p
  induction p with
  | nil =>
    intro q _ hne
    cases q with
    | nil => exact absurd rfl hne
    | cons j q' => exact ⟨j, q', rfl⟩
  | cons i resta ih =>
    intro q h hne
    cases q with
    | nil => simp [leadsTo] at h
    | cons k q0 =>
      simp only [leadsTo, Bool.and_eq_true, beq_iff_eq] at h
      have hne' : q0 ≠ resta := by
        intro he
        exact hne (by rw [he, h.1])
      obtain ⟨j, q', hq⟩ := ih h.2 hne'
      exact ⟨j, q', by rw [hq, h.1]; rfl⟩

/-! ## Lemmas about the flattening (for C5) -/

theorem ownCases_shape (p : Path) (cs : List (Option Exc)) :
    ∀ x ∈ ownCases p cs, x.path = p ∧ x.td = TdLevel.noneLevel := by
  intro x hx
  unfold ownCases at hx
  rcases List.mem_map.mp hx with ⟨ic, _, rfl⟩
  exact ⟨rfl, rfl⟩

theorem setLastTd_cons_of_ne (a : QCase) (xs : List QCase) (lvl : TdLevel) (h : xs ≠ []) :
    setLastTd (a :: xs) lvl = a :: setLastTd xs lvl := by
  cases xs with
  | nil => exact absurd rfl h
  | cons y ys => rfl

theorem setLastTd_rep : ∀ (l : List QCase) (lvl : TdLevel), l ≠ [] →
    ∃ l0 cl, l = l0 ++ [cl] ∧ setLastTd l lvl = l0 ++ [{ cl with td := lvl }] := by
  intro l
  induction l with
  | nil => intro lvl h; exact absurd rfl h
  | cons a xs ih =>
    intro lvl _
    by_cases hxs : xs = []
    · subst hxs
      exact ⟨[], a, by simp, by simp [setLastTd]⟩
    · obtain ⟨l0, cl, h1, h2⟩ := ih lvl hxs
      refine ⟨a :: l0, cl, by rw [List.cons_append, ← h1], ?_⟩
      rw [setLastTd_cons_of_ne a xs lvl hxs, h2]
      rfl

theorem setLastTd_mem {l : List QCase} {lvl : TdLevel} {x : QCase}
    (h : x ∈ setLastTd l lvl) :
    ∃ y ∈ l, x.path = y.path ∧ x.idx = y.idx ∧ x.body = y.body := by
  by_cases hl : l = []
  · subst hl
    simp [setLastTd] at h
  · obtain ⟨l0, cl, h1, h2⟩ := setLastTd_rep l lvl hl
    rw [h2] at h
    rcases List.mem_append.mp h with hx | hx
    · exact ⟨x, by rw [h1]; exact List.mem_append_left _ hx, rfl, rfl, rfl⟩
    · rcases List.mem_singleton.mp hx with rfl
      exact ⟨cl, by rw [h1]; simp, rfl, rfl, rfl⟩

theorem setLastTd_append (acc : List QCase) (d : List QCase) (lvl : TdLevel) (hd : d ≠ []) :
    setLastTd (acc ++ d) lvl = acc ++ setLastTd d lvl := by
  induction acc with
  | nil => rfl
  | cons a rest ih =>
    rw [List.cons_append,
      setLastTd_cons_of_ne a (rest ++ d) lvl (by simp [hd]), ih, List.cons_append]

mutual
theorem buildCases_append : ∀ (g : GTree) (p : Path) (acc : List QCase),
    buildCases g p acc = acc ++ buildD g p
  | .node cf su td ts tt cs ch, p, acc => by
    show buildChildren ch 0 p (acc ++ ownCases p cs)
        = acc ++ (ownCases p cs ++ buildChildrenD ch 0 p)
    rw [buildChildren_append ch 0 p (acc ++ ownCases p cs), List.append_assoc]

theorem buildChildren_append : ∀ (ch : GForest) (i : Nat) (p : Path) (acc : List QCase),
    buildChildren ch i p acc = acc ++ buildChildrenD ch i p
  | .nil, i, p, acc => by simp [buildChildren, buildChildrenD]
  | .cons c rest, i, p, acc => by
    show buildChildren (.cons c rest) i p acc = acc ++ buildChildrenD (.cons c rest) i p
    rw [buildChildren, buildChildrenD]
    rw [buildCases_append c (p ++ [i]) acc]
    by_cases hd : buildD c (p ++ [i]) = []
    · rw [hd]
      simp only [List.append_nil, Nat.lt_irrefl, if_false, List.length_append]
      rw [buildChildren_append rest (i + 1) p acc]
      simp
    · have hlen : acc.length < (acc ++ buildD c (p ++ [i])).length := by
        simp only [List.length_append]
        have : 0 < (buildD c (p ++ [i])).length := List.length_pos.mpr hd
        omega
      have hlen' : 0 < (buildD c (p ++ [i])).length := List.length_pos.mpr hd
      simp only [hlen, if_true, hlen', if_true]
      rw [setLastTd_append acc _ _ hd, buildChildren_append rest (i + 1) p _]
      simp [List.append_assoc]
end

mutual
theorem buildD_paths : ∀ (g : GTree) (p : Path) (x : QCase),
    x ∈ buildD g p → leadsTo p x.path = true
  | .node cf su td ts tt cs ch, p, x => by
    intro hx
    rw [buildD] at hx
    rcases List.mem_append.mp hx with hx | hx
    · rw [(ownCases_shape p cs x hx).1]
      exact leadsTo_refl p
    · obtain ⟨k, _, hk⟩ := buildChildrenD_paths ch 0 p x hx
      exact leadsTo_trans (leadsTo_append p [k]) hk

theorem buildChildrenD_paths : ∀ (ch : GForest) (i : Nat) (p : Path) (x : QCase),
    x ∈ buildChildrenD ch i p → ∃ k, i ≤ k ∧ leadsTo (p ++ [k]) x.path = true
  | .nil, i, p, x => by
    intro hx
    simp [buildChildrenD] at hx
  | .cons c rest, i, p, x => by
    intro hx
    rw [buildChildrenD] at hx
    rcases List.mem_append.mp hx with hx | hx
    · by_cases hd : 0 < (buildD c (p ++ [i])).length
      · rw [if_pos hd] at hx
        obtain ⟨y, hy, hpath, _, _⟩ := setLastTd_mem hx
        refine ⟨i, Nat.le_refl i, ?_⟩
        rw [hpath]
        exact buildD_paths c (p ++ [i]) y hy
      · rw [if_neg hd] at hx
        exact ⟨i, Nat.le_refl i, buildD_paths c (p ++ [i]) x hx⟩
    · obtain ⟨k, hk1, hk2⟩ := buildChildrenD_paths rest (i + 1) p x hx
      exact ⟨k, by omega, hk2⟩
end

mutual
theorem buildD_td : ∀ (g : GTree) (p : Path) (x : QCase), x ∈ buildD g p →
    x.td = TdLevel.noneLevel ∨ ∃ p', x.td = TdLevel.atGroup p'
      ∧ leadsTo p p' = true ∧ leadsTo p' x.path = true ∧ p' ≠ x.path
  | .node cf su td ts tt cs ch, p, x => by
    intro hx
    rw [buildD] at hx
    rcases List.mem_append.mp hx with hx | hx
    · exact Or.inl (ownCases_shape p cs x hx).2
    · exact buildChildrenD_td ch 0 p x hx

theorem buildChildrenD_td : ∀ (ch : GForest) (i : Nat) (p : Path) (x : QCase),
    x ∈ buildChildrenD ch i p →
    x.td = TdLevel.noneLevel ∨ ∃ p', x.td = TdLevel.atGroup p'
      ∧ leadsTo p p' = true ∧ leadsTo p' x.path = true ∧ p' ≠ x.path
  | .nil, i, p, x => by
    intro hx
    simp [buildChildrenD] at hx
  | .cons c rest, i, p, x => by
    intro hx
    rw [buildChildrenD] at hx
    rcases List.mem_append.mp hx with hx | hx
    · by_cases hd : 0 < (buildD c (p ++ [i])).length
      · rw [if_pos hd] at hx
        have hdne : buildD c (p ++ [i]) ≠ [] := by
          intro hc
          rw [hc] at hd
          simp at hd
        obtain ⟨l0, cl, h1, h2⟩ := setLastTd_rep (buildD c (p ++ [i])) (TdLevel.atGroup p) hdne
        rw [h2] at hx
        rcases List.mem_append.mp hx with hx | hx
        · have hxd : x ∈ buildD c (p ++ [i]) := by
            rw [h1]
            exact List.mem_append_left _ hx
          rcases buildD_td c (p ++ [i]) x hxd with hn | ⟨p', ht, hl1, hl2, hne⟩
          · exact Or.inl hn
          · exact Or.inr ⟨p', ht, leadsTo_trans (leadsTo_append p [i]) hl1, hl2, hne⟩
        · rcases List.mem_singleton.mp hx with rfl
          have hcld : cl ∈ buildD c (p ++ [i]) := by
            rw [h1]
            simp
          have hclp : leadsTo (p ++ [i]) cl.path = true := buildD_paths c (p ++ [i]) cl hcld
          refine Or.inr ⟨p, rfl, leadsTo_refl p, ?_, ?_⟩
          · show leadsTo p cl.path = true
            exact leadsTo_trans (leadsTo_append p [i]) hclp
          · show p ≠ cl.path
            intro he
            have h1len : (p ++ [i]).length ≤ cl.path.length := leadsTo_length hclp
            rw [← he] at h1len
            simp at h1len
      · rw [if_neg hd] at hx
        rcases buildD_td c (p ++ [i]) x hx with hn | ⟨p', ht, hl1, hl2, hne⟩
        · exact Or.inl hn
        · exact Or.inr ⟨p', ht, leadsTo_trans (leadsTo_append p [i]) hl1, hl2, hne⟩
    · exact buildChildrenD_td rest (i + 1) p x hx
end

/-! ## Filtering lemmas (for C5) -/

theorem subQ_append (a b : List QCase) (q : Path) :
    subQ (a ++ b) q = subQ a q ++ subQ b q := by
  simp [subQ, List.filter_append]

theorem subQ_eq_self {l : List QCase} {q : Path} (h : ∀ x ∈ l, leadsTo q x.path = true) :
    subQ l q = l := by
  unfold subQ
  rw [List.filter_eq_self]
  exact h

theorem subQ_eq_nil {l : List QCase} {q : Path} (h : ∀ x ∈ l, leadsTo q x.path = false) :
    subQ l q = [] := by
  unfold subQ
  rw [List.filter_eq_nil_iff]
  intro a ha
  simp [h a ha]

theorem subQ_mem {l : List QCase} {q : Path} {x : QCase} (h : x ∈ subQ l q) :
    x ∈ l ∧ leadsTo q x.path = true := by
  unfold subQ at h
  exact List.mem_filter.mp h

theorem subQ_mem_of {l : List QCase} {q : Path} {x : QCase}
    (hx : x ∈ l) (hl : leadsTo q x.path = true) : x ∈ subQ l q :=
  List.mem_filter.mpr ⟨hx, hl⟩

theorem subQ_single_pos {cl : QCase} {q : Path} (h : leadsTo q cl.path = true) :
    subQ [cl] q = [cl] := subQ_eq_self (by simpa using h)

theorem subQ_single_neg {cl : QCase} {q : Path} (h : leadsTo q cl.path = false) :
    subQ [cl] q = [] := subQ_eq_nil (by simpa using h)

theorem ownerProp_congr {l l' : List QCase} {q : Path} (h : subQ l q = subQ l' q)
    (hp : ownerProp l' q) : ownerProp l q := by
  unfold ownerProp
  rw [h]
  exact hp

/-! ## Teardown-owner lemmas (for C5) -/

theorem owner_last_uniq (l0 : List QCase) (cl : QCase) (q : Path)
    (hprop : ownerProp (l0 ++ [cl]) q) (hlc : leadsTo q cl.path = true) :
    ∀ x ∈ subQ (l0 ++ [cl]) q, unwindsB x q = true → x.path = cl.path ∧ x.idx = cl.idx := by
  have hsplit : subQ (l0 ++ [cl]) q = subQ l0 q ++ [cl] := by
    rw [subQ_append, subQ_single_pos hlc]
  have hne : subQ (l0 ++ [cl]) q ≠ [] := by
    rw [hsplit]
    simp
  obtain ⟨cstar, hlast, _, huniq⟩ := hprop hne
  have hcstar : cstar = cl := by
    rw [hsplit, List.getLast?_concat] at hlast
    exact (Option.some_inj.mp hlast).symm
  intro x hx hu
  have hres := huniq x hx hu
  rw [hcstar] at hres
  exact hres

theorem owner_transfer (l0 : List QCase) (cl : QCase) (q : Path) (lvl : TdLevel)
    (hcase : leadsTo q cl.path = false → ownerProp (l0 ++ [cl]) q)
    (huniq : leadsTo q cl.path = true →
      ∀ x ∈ subQ (l0 ++ [cl]) q, unwindsB x q = true → x.path = cl.path ∧ x.idx = cl.idx)
    (hu : unwindsLvl lvl q = true) :
    ownerProp (l0 ++ [{ cl with td := lvl }]) q := by
  by_cases hlc : leadsTo q cl.path = true
  · have hsplit : subQ (l0 ++ [{ cl with td := lvl }]) q
        = subQ l0 q ++ [{ cl with td := lvl }] := by
      rw [subQ_append, subQ_single_pos (show leadsTo q ({ cl with td := lvl } : QCase).path
        = true from hlc)]
    intro _
    refine ⟨{ cl with td := lvl }, ?_, hu, ?_⟩
    · rw [hsplit, List.getLast?_concat]
    · intro x hx hxu
      rw [hsplit] at hx
      rcases List.mem_append.mp hx with hx | hx
      · have hx' : x ∈ subQ (l0 ++ [cl]) q := by
          rw [subQ_append, subQ_single_pos hlc]
          exact List.mem_append_left _ hx
        exact huniq hlc x hx' hxu
      · rcases List.mem_singleton.mp hx with rfl
        exact ⟨rfl, rfl⟩
  · simp only [Bool.not_eq_true] at hlc
    have hsplit : subQ (l0 ++ [{ cl with td := lvl }]) q = subQ (l0 ++ [cl]) q := by
      rw [subQ_append, subQ_append,
        subQ_single_neg hlc,
        subQ_single_neg (show leadsTo q ({ cl with td := lvl } : QCase).path = false from hlc)]
    exact ownerProp_congr hsplit (hcase hlc)

mutual
theorem ownerD : ∀ (g : GTree) (p q : Path), leadsTo p q = true → q ≠ p →
    ownerProp (buildD g p) q
  | .node cf su td ts tt cs ch, p, q => by
    intro hpq hne
    have hown : subQ (ownCases p cs) q = [] := by
      apply subQ_eq_nil
      intro x hx
      rw [(ownCases_shape p cs x hx).1]
      by_contra hc
      simp only [Bool.not_eq_false] at hc
      have h1 : p.length < q.length := leadsTo_length_lt hpq (Ne.symm hne)
      have h2 : q.length ≤ p.length := leadsTo_length hc
      omega
    have hsub : subQ (buildD (.node cf su td ts tt cs ch) p) q
        = subQ (buildChildrenD ch 0 p) q := by
      rw [buildD, subQ_append, hown, List.nil_append]
    exact ownerProp_congr hsub (ownerChildrenD ch 0 p q hpq hne)

theorem ownerChildrenD : ∀ (ch : GForest) (i : Nat) (p q : Path), leadsTo p q = true →
    q ≠ p → ownerProp (buildChildrenD ch i p) q
  | .nil, i, p, q => by
    intro _ _ hcontra
    exact absurd (by rw [buildChildrenD]; rfl) hcontra
  | .cons c rest, i, p, q => by
    intro hpq hne
    obtain ⟨j, q', hq⟩ := leadsTo_decomp hpq hne
    have hq2 : q = (p ++ [j]) ++ q' := by
      rw [hq]
      simp
    have hlead_j : leadsTo (p ++ [j]) q = true := by
      rw [hq2]
      exact leadsTo_append _ _
    by_cases hij : j = i
    case neg =>
      have hA : subQ (if 0 < (buildD c (p ++ [i])).length
          then setLastTd (buildD c (p ++ [i])) (TdLevel.atGroup p)
          else buildD c (p ++ [i])) q = [] := by
        apply subQ_eq_nil
        intro x hx
        by_contra hc
        simp only [Bool.not_eq_false] at hc
        have hxi : leadsTo (p ++ [i]) x.path = true := by
          by_cases hd : 0 < (buildD c (p ++ [i])).length
          · rw [if_pos hd] at hx
            obtain ⟨y, hy, hpath, _, _⟩ := setLastTd_mem hx
            rw [hpath]
            exact buildD_paths c (p ++ [i]) y hy
          · rw [if_neg hd] at hx
            exact buildD_paths c (p ++ [i]) x hx
        have hxj : leadsTo (p ++ [j]) x.path = true := leadsTo_trans hlead_j hc
        exact hij (leadsTo_index hxj hxi)
      have hsub : subQ (buildChildrenD (.cons c rest) i p) q
          = subQ (buildChildrenD rest (i + 1) p) q := by
        rw [buildChildrenD, subQ_append, hA, List.nil_append]
      exact ownerProp_congr hsub (ownerChildrenD rest (i + 1) p q hpq hne)
    case pos =>
      subst hij
      have hR : subQ (buildChildrenD rest (j + 1) p) q = [] := by
        apply subQ_eq_nil
        intro x hx
        by_contra hc
        simp only [Bool.not_eq_false] at hc
        obtain ⟨k, hk1, hk2⟩ := buildChildrenD_paths rest (j + 1) p x hx
        have hxj : leadsTo (p ++ [j]) x.path = true := leadsTo_trans hlead_j hc
        have hjk := leadsTo_index hxj hk2
        omega
      by_cases hd : 0 < (buildD c (p ++ [j])).length
      case neg =>
        have hd0 : buildD c (p ++ [j]) = [] := by
          cases hb : buildD c (p ++ [j]) with
          | nil => rfl
          | cons y tl =>
            rw [hb] at hd
            simp at hd
        intro hcontra
        refine absurd ?_ hcontra
        rw [buildChildrenD, subQ_append, hR, List.append_nil, if_neg hd, hd0]
        rfl
      case pos =>
        have hdne : buildD c (p ++ [j]) ≠ [] := by
          intro hc0
          rw [hc0] at hd
          simp at hd
        obtain ⟨l0, cl, h1, h2⟩ :=
          setLastTd_rep (buildD c (p ++ [j])) (TdLevel.atGroup p) hdne
        have hclmem : cl ∈ buildD c (p ++ [j]) := by
          rw [h1]
          simp
        have hclpath : leadsTo (p ++ [j]) cl.path = true :=
          buildD_paths c (p ++ [j]) cl hclmem
        have htrans : ownerProp (l0 ++ [{ cl with td := TdLevel.atGroup p }]) q := by
          apply owner_transfer l0 cl q (TdLevel.atGroup p)
          · intro hlcf
            have hqne : q ≠ p ++ [j] := by
              intro he
              rw [he, hclpath] at hlcf
              exact Bool.true_eq_false.mp hlcf
            rw [← h1]
            exact ownerD c (p ++ [j]) q hlead_j hqne
          · intro hlct x hx hxu
            by_cases hqe : q = p ++ [j]
            · exfalso
              have hxd : x ∈ buildD c (p ++ [j]) := by
                rw [h1]
                exact (subQ_mem hx).1
              rcases buildD_td c (p ++ [j]) x hxd with hn | ⟨p'', ht, hl1, hl2, hne2⟩
              · unfold unwindsB at hxu
                rw [hn] at hxu
                simp [unwindsLvl] at hxu
              · unfold unwindsB at hxu
                rw [ht] at hxu
                simp only [unwindsLvl, Bool.and_eq_true, Bool.not_eq_true',
                  beq_eq_false_iff_ne] at hxu
                rw [← hqe] at hl1
                exact hxu.2 (leadsTo_eq_of_length_ge hxu.1 (leadsTo_length hl1))
            · have hprop : ownerProp (l0 ++ [cl]) q := by
                rw [← h1]
                exact ownerD c (p ++ [j]) q hlead_j hqe
              exact owner_last_uniq l0 cl q hprop hlct x hx hxu
          · simp only [unwindsLvl, Bool.and_eq_true, Bool.not_eq_true', beq_eq_false_iff_ne]
            exact ⟨hpq, Ne.symm hne⟩
        have hsub : subQ (buildChildrenD (.cons c rest) j p) q
            = subQ (l0 ++ [{ cl with td := TdLevel.atGroup p }]) q := by
          rw [buildChildrenD, subQ_append, hR, List.append_nil, if_pos hd, h2]
        exact ownerProp_congr hsub htrans
end

/-- **C5.** For every group tree whose flattening yields a non-empty case
queue: the very last case of the queue carries the synthetic null
teardown marker (`NullGroup`), meaning it unwinds every group remaining
on the fixture stack; and every group `q` whose subtree contributed at
least one case has a well-defined teardown owner — the last case of `q`'s
subtree in the queue carries a teardown level that unwinds `q` (a strict
leading run of `q`, or the null marker), and no other case of `q`'s
subtree does. -/
theorem C5_teardown_owner (t : GTree) (q : Path) (hne : createTests t ≠ []) :
    (∃ clast, (createTests t).getLast? = some clast ∧ clast.td = TdLevel.nullLevel)
    ∧ ownerProp (createTests t) q := by
  have hbridge : buildCases t [] [] = buildD t [] := by
    have h := buildCases_append t [] []
    simpa using h
  have hQne : buildD t [] ≠ [] := by
    intro hc
    apply hne
    unfold createTests
    rw [hbridge, hc]
    rfl
  have hct : createTests t = setLastTd (buildD t []) TdLevel.nullLevel := by
    unfold createTests
    rw [hbridge]
    show (if (buildD t []).length > 0 then setLastTd (buildD t []) TdLevel.nullLevel
      else buildD t []) = _
    rw [if_pos (by simpa using List.length_pos.mpr hQne)]
  obtain ⟨l0, cl, h1, h2⟩ := setLastTd_rep (buildD t []) TdLevel.nullLevel hQne
  constructor
  · exact ⟨{ cl with td := TdLevel.nullLevel }, by rw [hct, h2, List.getLast?_concat], rfl⟩
  · rw [hct, h2]
    apply owner_transfer l0 cl q TdLevel.nullLevel
    · intro hlcf
      by_cases hq0 : q = []
      · rw [hq0, leadsTo_nil] at hlcf
        exact absurd hlcf (by simp)
      · rw [← h1]
        exact ownerD t [] q (leadsTo_nil q) hq0
    · intro hlct x hx hxu
      by_cases hq0 : q = []
      · subst hq0
        exfalso
        have hxd : x ∈ buildD t [] := by
          rw [h1]
          exact (subQ_mem hx).1
        rcases buildD_td t [] x hxd with hn | ⟨p'', ht, hl1, hl2, hne2⟩
        · unfold unwindsB at hxu
          rw [hn] at hxu
          simp [unwindsLvl] at hxu
        · unfold unwindsB at hxu
          rw [ht] at hxu
          simp only [unwindsLvl, Bool.and_eq_true, Bool.not_eq_true',
            beq_eq_false_iff_ne] at hxu
          cases hp'' : p'' with
          | nil => exact hxu.2 (by rw [hp''])
          | cons a b =>
            rw [hp''] at hxu
            simp [leadsTo] at hxu
      · have hprop : ownerProp (l0 ++ [cl]) q := by
          rw [← h1]
          exact ownerD t [] q (leadsTo_nil q) hq0
        exact owner_last_uniq l0 cl q hprop hlct x hx hxu
    · rfl

/-- **C5 witness.** -/
theorem C5_witness :
    (∃ clast, (createTests c4Tree).getLast? = some clast ∧ clast.td = TdLevel.nullLevel)
    ∧ ownerProp (createTests c4Tree) [0] :=
  C5_teardown_owner c4Tree [0] (by decide)

end Contextional
